import Mathlib

/-!
# PolySort (`src/polysort.c`) — shallow embedding and verification

The C program sorts an `int` array in place.  We model the array as a
`List Int` (the machine `int` values).  Indices, loop counters and the
analyzer's tallies stay far below `2^31` on every input, and arithmetic
on the stored values is limited to comparisons and truncating `/`, `%`
by positive constants, which cannot overflow; the one overflowable
computation the program performs — the radix pass-loop increment
`exp *= 10` on the 32-bit `int exp` — is modelled explicitly (see
`radixPasses`).  In-place mutation becomes explicit state passing: every
loop is a fold or a structural recursion over the loop counter, and each
C array write `arr[k] = v` is `List.set k v`.

Fallible code returns `Option`:
* `malloc` failures are assumed not to happen (the spec treats allocation
  failure as a separate recoverable condition; no claim is about it);
* the radix backend's `count[(arr[i]/exp) % 10]` — when the digit is
  negative (C truncating division/remainder on a negative value) the C
  program indexes the 10-element `count` array out of bounds, which is
  undefined behavior.  The model returns `none` exactly in that case;
* the radix pass-loop increment `exp *= 10`: when the mathematical
  product exceeds `INT_MAX` this is signed 32-bit overflow — undefined
  behavior, again modelled as `none`.  It happens exactly when the
  range's maximum has 10 decimal digits (`max ≥ 10^9`, still a valid
  non-negative `int`): the loop then runs a pass at `exp = 10^9` and the
  following increment computes `10^10 > INT_MAX`.
-/

set_option maxRecDepth 40000

namespace PolySort

/-- `#define INSERTION_SORT_THRESHOLD 32` -/
def INSERTION_SORT_THRESHOLD : Nat := 32

/-- `#define ANALYSIS_SAMPLE_SIZE 100` -/
def ANALYSIS_SAMPLE_SIZE : Nat := 100

/-- The `SortStrategy` enum of the C source. -/
inductive SortStrategy where
  | STRATEGY_MERGESORT
  | STRATEGY_RADIXSORT
  | STRATEGY_QUICKSORT
deriving DecidableEq, Repr

open SortStrategy

/-! ## Utility: `swap` (applied to two array cells) -/

/-- `swap(&arr[i], &arr[j])` on the list model. -/
def swapL (a : List Int) (i j : Nat) : List Int :=
  let vi := a.getD i 0
  let vj := a.getD j 0
  (a.set i vj).set j vi

/-! ## Insertion sort (`insertionSort(arr, left, right)`)

The inner `while (j >= left && arr[j] > key)` loop runs `j` downward from
`i - 1`; we recurse on `steps = j - left`, so `j = left + steps`.  The
function returns the shifted array together with the final `j + 1`, the
slot where `arr[j+1] = key` is stored by the caller. -/

/-- The inner shifting loop of `insertionSort`; current index is
`j = left + steps`. -/
def insInner (a : List Int) (key : Int) (left : Nat) : Nat → List Int × Nat
  | 0 =>
    -- j = left: last iteration the loop guard `j >= left` can admit
    if key < a.getD left 0 then ((a.set (left + 1) (a.getD left 0)), left)
    else (a, left + 1)
  | steps + 1 =>
    -- current index j = left + steps + 1
    if key < a.getD (left + steps + 1) 0 then
      insInner (a.set (left + steps + 2) (a.getD (left + steps + 1) 0)) key left steps
    else (a, left + steps + 2)

/-- One iteration of the outer `for (i = left + 1; i <= right; i++)` loop. -/
def insStep (left : Nat) (a : List Int) (i : Nat) : List Int :=
  let key := a.getD i 0
  let p := insInner a key left (i - 1 - left)
  p.1.set p.2 key

/-- `insertionSort(arr, left, right)`: the outer loop over
`i = left+1, …, right`. -/
def insertionSort (a : List Int) (left right : Nat) : List Int :=
  (List.range' (left + 1) (right - left)).foldl (insStep left) a

/-! ## Quicksort (`partition`, `quickSortRecursive`, `quickSort`)

In the C `partition`, `i` starts at `low - 1` (possibly `-1`); we track
`i1 = i + 1 : Nat` instead, which starts at `low`; `i++; swap(arr[i],
arr[j])` becomes a swap at `i1` followed by `i1 + 1`. -/

/-- The `for (j = low; j <= high - 1; j++)` loop of `partition`,
with state `(arr, i1)`. -/
def partitionFold (a : List Int) (low high : Nat) : List Int × Nat :=
  let pivot := a.getD high 0
  (List.range' low (high - low)).foldl
    (fun st j => if st.1.getD j 0 < pivot then (swapL st.1 st.2 j, st.2 + 1) else st)
    (a, low)

/-- `partition(arr, low, high)`: returns the array after the final
`swap(&arr[i+1], &arr[high])` and the pivot position `i + 1`. -/
def partitionL (a : List Int) (low high : Nat) : List Int × Nat :=
  let p := partitionFold a low high
  (swapL p.1 p.2 high, p.2)

/-- `quickSortRecursive`, with explicit fuel (the C recursion terminates
because each recursive range is strictly smaller; `fuel = high + 1 - low`
always suffices).  In C the call `quickSortRecursive(arr, low, pi - 1)`
can pass `pi - 1 = low - 1 < low` (an `int`); with `Nat` truncation the
guard `low < high` rejects the call in exactly the same cases. -/
def quickSortRec : Nat → List Int → Nat → Nat → List Int
  | 0, a, _, _ => a
  | fuel + 1, a, low, high =>
    if low < high then
      if high - low + 1 < INSERTION_SORT_THRESHOLD then insertionSort a low high
      else
        let p := partitionL a low high
        let a1 := quickSortRec fuel p.1 low (p.2 - 1)
        quickSortRec fuel a1 (p.2 + 1) high
    else a

/-- `quickSort(arr, low, high)`. -/
def quickSort (a : List Int) (low high : Nat) : List Int :=
  quickSortRec (high + 1 - low) a low high

/-! ## Merge sort (`merge`, `mergeSort`) -/

/-- The contiguous segment `arr[l..r]` (both ends included), read as a
list: the two `L`/`R` buffer-filling loops of `merge`. -/
def segment (a : List Int) (l r : Nat) : List Int :=
  (a.drop l).take (r + 1 - l)

/-- The three copy-back `while` loops of `merge`: write the merge of the
two buffers into `arr[k], arr[k+1], …`.  Fuel `|L| + |R|` always
suffices. -/
def mergeWrite : Nat → List Int → Nat → List Int → List Int → List Int
  | 0, a, _, _, _ => a
  | fuel + 1, a, k, L, R =>
    match L, R with
    | [], [] => a
    | [], y :: ys => mergeWrite fuel (a.set k y) (k + 1) [] ys
    | x :: xs, [] => mergeWrite fuel (a.set k x) (k + 1) xs []
    | x :: xs, y :: ys =>
      if x ≤ y then mergeWrite fuel (a.set k x) (k + 1) xs (y :: ys)
      else mergeWrite fuel (a.set k y) (k + 1) (x :: xs) ys

/-- `merge(arr, l, m, r)`. -/
def mergeRange (a : List Int) (l m r : Nat) : List Int :=
  let L := segment a l m
  let R := segment a (m + 1) r
  mergeWrite (L.length + R.length) a l L R

/-- `mergeSort(arr, l, r)`, with explicit fuel (`fuel = r + 1 - l`
exceeds the recursion depth, so it always suffices). -/
def mergeSortRec : Nat → List Int → Nat → Nat → List Int
  | 0, a, _, _ => a
  | fuel + 1, a, l, r =>
    if l < r then
      let m := l + (r - l) / 2
      let a1 := mergeSortRec fuel a l m
      let a2 := mergeSortRec fuel a1 (m + 1) r
      mergeRange a2 l m r
    else a

/-- `mergeSort(arr, l, r)` at its natural fuel. -/
def mergeSortL (a : List Int) (l r : Nat) : List Int :=
  mergeSortRec (r + 1 - l) a l r

/-! ## Radix sort (`getMax`, `countingSortForRadix`, `radixSort`) -/

/-- `getMax(arr, n)`: `max = arr[0]` then scan.  (`radixSort` is only
invoked with `n ≥ 32`; the `[]` case never arises there.) -/
def getMax : List Int → Int
  | [] => 0
  | x :: xs => xs.foldl (fun m v => if m < v then v else m) x

/-- The digit key `(arr[i] / exp) % 10` with C's truncating `int`
division and remainder (`Int.tdiv` / `Int.tmod`). -/
def digitAt (exp x : Int) : Int :=
  Int.tmod (Int.tdiv x exp) 10

/-- The C pass is well defined iff every digit lies in `0..9`, i.e. is
non-negative (`tmod 10` is always `< 10` in absolute value); a negative
digit indexes `count[10]` out of bounds — undefined behavior. -/
def digitOk (exp : Int) (a : List Int) : Bool :=
  a.all (fun x => 0 ≤ digitAt exp x)

/-- `int count[10] = {0};` followed by
`for (i = 0; i < n; i++) count[(arr[i] / exp) % 10]++;`. -/
def countAcc (exp : Int) (a : List Int) : List Nat :=
  a.foldl (fun c x => c.set (digitAt exp x).toNat (c.getD (digitAt exp x).toNat 0 + 1))
    (List.replicate 10 0)

/-- `for (i = 1; i < 10; i++) count[i] += count[i - 1];` -/
def prefixLoop (c : List Nat) : List Nat :=
  (List.range' 1 9).foldl (fun c i => c.set i (c.getD i 0 + c.getD (i - 1) 0)) c

/-- `for (i = n - 1; i >= 0; i--) { output[count[d_i] - 1] = arr[i];
count[d_i]--; }` — the placement loop, processed right to left (the head
of the list is placed last).  `output` is the write-only buffer, one
`Option Int` cell per position. -/
def placeLoop (exp : Int) : List Int → List Nat → List (Option Int) →
    List Nat × List (Option Int)
  | [], c, out => (c, out)
  | x :: rest, c, out =>
    let st := placeLoop exp rest c out
    let d := (digitAt exp x).toNat
    (st.1.set d (st.1.getD d 0 - 1), st.2.set (st.1.getD d 0 - 1) (some x))

/-- `countingSortForRadix(arr, n, exp)`; `none` models the out-of-bounds
`count` access on a negative digit.  The final
`for (i = 0; i < n; i++) arr[i] = output[i];` is the `map` back out of
the buffer. -/
def countingSortForRadix (a : List Int) (exp : Int) : Option (List Int) :=
  if digitOk exp a then
    let c := prefixLoop (countAcc exp a)
    let st := placeLoop exp a c (List.replicate a.length none)
    some (st.2.map (fun o => o.getD 0))
  else none

/-- The largest value of the platform's 32-bit `int`; `exp` in
`radixSort` has that type. -/
def INT_MAX : Int := 2147483647

/-- The `for (exp = 1; m / exp > 0; exp *= 10)` loop of `radixSort`.
`t` tracks `m / exp` (`t / 10` on the next iteration, by
`m / (10·exp) = (m / exp) / 10`); the fuel `t + 1` always suffices since
the loop runs `(Nat.digits 10 t).length ≤ t` times.  After each pass the
loop increment `exp *= 10` executes on the 32-bit `int exp`; when the
mathematical product exceeds `INT_MAX` this is signed overflow —
undefined behavior, modelled as `none`. -/
def radixPasses : Nat → List Int → Nat → Int → Option (List Int)
  | 0, a, _, _ => some a
  | fuel + 1, a, t, exp =>
    if t = 0 then some a
    else match countingSortForRadix a exp with
      | none => none
      | some a1 =>
        if exp * 10 ≤ INT_MAX then radixPasses fuel a1 (t / 10) (exp * 10)
        else none

/-- `radixSort(arr, n)`.  When `m = getMax arr ≤ 0` the C loop guard
`m / exp > 0` fails at once (zero passes); `Int.toNat` gives the same
`t = 0` there. -/
def radixSort (a : List Int) : Option (List Int) :=
  let m := getMax a
  radixPasses (m.toNat + 1) a m.toNat 1

/-- The stable counting pass as the spec words it: one pass keyed on the
digit at `exp` concatenates, in digit order `0..9`, the sub-sequences of
elements with that digit, each kept in input order.
(`countingSortForRadix` is proved below to compute exactly this list
whenever its digits are in range.) -/
def stableDigitPass (exp : Int) (a : List Int) : List Int :=
  (List.range 10).flatMap (fun d => a.filter (fun x => decide (digitAt exp x = (d : Int))))

/-- `D` consecutive stable counting passes keyed on digit positions
`k, k+1, …, k+D-1`: the spec's description of the whole radix backend
(`radixSort` is proved below to compute `applyStablePasses D 0` with `D`
the decimal digit count of the maximum, whenever that maximum stays
below `10^9` so that `exp` never overflows). -/
def applyStablePasses : Nat → Nat → List Int → List Int
  | 0, _, a => a
  | D + 1, k, a => applyStablePasses D (k + 1) (stableDigitPass ((10 : Int) ^ k) a)

/-! ## Analysis engine (`analyzeData`) -/

/-- Sample size `(n < ANALYSIS_SAMPLE_SIZE) ? n : ANALYSIS_SAMPLE_SIZE`. -/
def sampleSize (n : Nat) : Nat := min n ANALYSIS_SAMPLE_SIZE

/-- The sample: the first `sampleSize n` elements of the array. -/
def sampleOf (a : List Int) (n : Nat) : List Int := a.take (sampleSize n)

/-- `ascending_pairs`: the loop `for (i = 0; i < sample_size - 1; ++i)`
counts indices with `arr[i] <= arr[i+1]`. -/
def ascendingPairs (s : List Int) : Nat :=
  (s.zip s.tail).countP (fun p => p.1 ≤ p.2)

/-- `has_negative`: the same loop tests `arr[i] < 0` only for
`i < sample_size - 1`, i.e. on `s.dropLast` — the last sample element is
never sign-checked. -/
def hasNegativeScan (s : List Int) : Bool :=
  s.dropLast.any (fun x => x < 0)

/-- `(double)ascending_pairs / (sample_size - 1) >= NEARLY_SORTED_THRESHOLD`.

For `2 ≤ size ≤ 100` the IEEE-double comparison agrees exactly with the
rational comparison `asc / (size - 1) ≥ 85/100`, i.e.
`17 * (size - 1) ≤ 20 * asc`: both sides of the C comparison are
correctly rounded, rounding is monotone, and any ratio `p/q` with
`q ≤ 99` differs from `85/100` either by `0` or by at least
`1/(20·99)`, far above one ulp.  For `size ≤ 1` the C division yields
`NaN` (`0.0/0.0`) or `-0.0` (numerator `0`, denominator `-1`), and the
comparison is false. -/
def nearlySortedCheck (asc size : Nat) : Bool :=
  decide (2 ≤ size) && decide (17 * (size - 1) ≤ 20 * asc)

/-- Insertion of one key into a sorted list, after all elements `≤` it:
used to model the libc `qsort` call on the sample copy.  (`qsort` is an
unspecified correct comparison sort; any correct sort produces the same
list — the sorted permutation of a multiset of integers is unique — so
the unique-count below is modelled faithfully.) -/
def insertKey (key : Int) : List Int → List Int
  | [] => [key]
  | x :: xs => if x ≤ key then x :: insertKey key xs else key :: x :: xs

/-- The sorted copy of the sample (`qsort(sample_copy, …, compareInts)`). -/
def sortedSample (s : List Int) : List Int :=
  s.foldl (fun acc x => insertKey x acc) []

/-- `unique_count`: starts at `1`, and the loop
`for (i = 1; i < sample_size; ++i)` increments on
`sample_copy[i] != sample_copy[i-1]`. -/
def uniqueCount (s : List Int) : Nat :=
  1 + (s.zip s.tail).countP (fun p => p.1 ≠ p.2)

/-- `(double)unique_count / sample_size <= LOW_CARDINALITY_THRESHOLD`:
again exact as a rational comparison (`unique_count ≤ size/5`, i.e.
`5 * unique_count ≤ size`) for every reachable `size ≤ 100`. -/
def lowCardinalityCheck (unique size : Nat) : Bool :=
  decide (5 * unique ≤ size)

/-- `analyzeData(arr, n)`.  The claims apply it with `n = a.length`
(the C caller's contract). -/
def analyzeData (a : List Int) (n : Nat) : SortStrategy :=
  let ss := sampleSize n
  let s := sampleOf a n
  if nearlySortedCheck (ascendingPairs s) ss then STRATEGY_MERGESORT
  else if !hasNegativeScan s then STRATEGY_RADIXSORT
  else
    let sorted := sortedSample s
    if lowCardinalityCheck (uniqueCount sorted) ss then STRATEGY_QUICKSORT
    else STRATEGY_QUICKSORT

/-! ## Dispatcher (`adaptiveHybridSort`) -/

/-- `adaptiveHybridSort(arr, n)` with `n` the length of the array. -/
def adaptiveHybridSort (a : List Int) : Option (List Int) :=
  let n := a.length
  if n ≤ 1 then some a
  else if n < INSERTION_SORT_THRESHOLD then some (insertionSort a 0 (n - 1))
  else match analyzeData a n with
    | STRATEGY_MERGESORT => some (mergeSortL a 0 (n - 1))
    | STRATEGY_RADIXSORT => radixSort a
    | STRATEGY_QUICKSORT => some (quickSort a 0 (n - 1))

/-! ## Concrete inputs used to exercise the analysis and the radix path

Both lists have length 32 (so the analysis engine runs), contain no
negative value among the 31 positions the sign scan covers, and have
only 4 of 31 ascending adjacent pairs (so the sortedness heuristic does
not fire): the analyzer returns the radix strategy although the last
sample element is negative. -/

/-- 32 elements; the final `-10` has least-significant digit `0` under
C's truncating remainder, so the radix pass stays in bounds but orders
`-10` among the zeros. -/
def arrNeg10 : List Int :=
  [0, 9, 8, 7, 6, 5, 4, 3, 2, 1,
      9, 8, 7, 6, 5, 4, 3, 2, 1,
      9, 8, 7, 6, 5, 4, 3, 2, 1,
      9, 8, 7, -10]

/-- 32 elements; the final `-5` has digit `-5` under C's truncating
remainder, so the radix pass indexes `count[-5]` — out of bounds. -/
def arrNeg5 : List Int :=
  [0, 9, 8, 7, 6, 5, 4, 3, 2, 1,
      9, 8, 7, 6, 5, 4, 3, 2, 1,
      9, 8, 7, 6, 5, 4, 3, 2, 1,
      9, 8, 7, -5]

/-- A one-element array (trivial dispatcher case). -/
def dOne : List Int := [7]

/-- A 31-element array: one below `INSERTION_SORT_THRESHOLD`. -/
def dThirtyOne : List Int :=
  [30, 0, 1, 2, 3, 4, 5, 6, 7, 8, 9, 10, 11, 12, 13, 14,
   15, 16, 17, 18, 19, 20, 21, 22, 23, 24, 25, 26, 27, 28, 29]

/-- A 32-element array: exactly `INSERTION_SORT_THRESHOLD`. -/
def dThirtyTwo : List Int :=
  [31, 0, 1, 2, 3, 4, 5, 6, 7, 8, 9, 10, 11, 12, 13, 14,
   15, 16, 17, 18, 19, 20, 21, 22, 23, 24, 25, 26, 27, 28, 29, 30]

/-- A 40-element array with 38 of 39 adjacent pairs ascending and a
negative last element. -/
def dForty : List Int :=
  ((List.range 39).map (fun i => (i : Int))) ++ [-1]

/-- A one-element all-non-negative range whose maximum has 10 decimal
digits (`10^9` is a valid C `int`, well below `INT_MAX`). -/
def dOverflow : List Int := [1000000000]

/-! # Theorems -/

/-! ## The analysis engine -/

theorem hasNegativeScan_of_short (s : List Int) (h : s.length ≤ 1) :
    hasNegativeScan s = false := by
  match s, h with
  | [], _ => rfl
  | [x], _ => rfl

/--
**C8.** `analyzeData` is deterministic and stateless: it is a pure
function (the model is a Lean function, mirroring that the C function
reads no global mutable state), and any two calls whose samples agree in
contents and in size return the same strategy, whatever the lengths of
the two source arrays.
-/
theorem analyzeData_deterministic (a₁ : List Int) (n₁ : Nat) (a₂ : List Int) (n₂ : Nat)
    (hsize : sampleSize n₁ = sampleSize n₂)
    (hsample : sampleOf a₁ n₁ = sampleOf a₂ n₂) :
    analyzeData a₁ n₁ = analyzeData a₂ n₂ := by
  unfold analyzeData
  rw [hsize, hsample]

/-- Witness for C8: two arrays of different lengths (120 and 130) whose
first 100 elements agree get the same strategy. -/
theorem analyzeData_deterministic_witness :
    sampleSize 120 = sampleSize 130 ∧
    sampleOf (List.replicate 120 (5 : Int)) 120 = sampleOf (List.replicate 130 (5 : Int)) 130 ∧
    analyzeData (List.replicate 120 (5 : Int)) 120 = analyzeData (List.replicate 130 (5 : Int)) 130 :=
  ⟨by decide, by decide,
    analyzeData_deterministic (List.replicate 120 (5 : Int)) 120 (List.replicate 130 (5 : Int)) 130
      (by decide) (by decide)⟩

/--
**C9.** A sample of length 1 cannot trigger the sortedness heuristic:
the C comparison `(double)0 / 0 >= 0.85` is `NaN >= 0.85`, which is
false, so the analysis falls through — and, the sign scan having covered
no element, heuristic 2 then returns the radix strategy.  No crash
occurs: the model (like the IEEE division) is total.
-/
theorem analyzeData_singleton_sample (a : List Int) (n : Nat) (h : sampleSize n = 1) :
    nearlySortedCheck (ascendingPairs (sampleOf a n)) (sampleSize n) = false ∧
    analyzeData a n = STRATEGY_RADIXSORT := by
  have hns : nearlySortedCheck (ascendingPairs (sampleOf a n)) (sampleSize n) = false := by
    rw [h]
    simp [nearlySortedCheck]
  refine ⟨hns, ?_⟩
  have hlen : (sampleOf a n).length ≤ 1 := by
    have : (sampleOf a n).length ≤ sampleSize n := by
      simp [sampleOf]
    omega
  simp only [analyzeData]
  rw [hns, hasNegativeScan_of_short _ hlen]
  rfl

/-- Witness for C9 at the one-element array `dOne`. -/
theorem analyzeData_singleton_sample_witness :
    sampleSize 1 = 1 ∧
    (nearlySortedCheck (ascendingPairs (sampleOf dOne 1)) (sampleSize 1) = false ∧
      analyzeData dOne 1 = STRATEGY_RADIXSORT) :=
  ⟨by decide, analyzeData_singleton_sample dOne 1 (by decide)⟩

/--
**C5.** If the sample has at least two elements and the fraction of
ascending adjacent pairs is at least 0.85, the analyzer returns the
merge strategy.  No hypothesis on signs or duplicates is needed: the
sortedness heuristic is evaluated first, so its verdict wins.  (For
sample sizes `2..100` the C double comparison against `0.85` coincides
with the exact rational comparison used here.)
-/
theorem analyzeData_nearly_sorted_merge (a : List Int) (n : Nat)
    (h2 : 2 ≤ sampleSize n)
    (hr : (85 : ℚ) / 100 ≤
      (ascendingPairs (sampleOf a n) : ℚ) / ((sampleSize n - 1 : Nat) : ℚ)) :
    analyzeData a n = STRATEGY_MERGESORT := by
  have hq : (0 : ℚ) < ((sampleSize n - 1 : Nat) : ℚ) := by
    have : 1 ≤ sampleSize n - 1 := by omega
    exact_mod_cast Nat.lt_of_lt_of_le Nat.zero_lt_one this
  have hcross : (85 : ℚ) * ((sampleSize n - 1 : Nat) : ℚ) ≤
      (ascendingPairs (sampleOf a n) : ℚ) * 100 :=
    (div_le_div_iff₀ (by norm_num) hq).mp hr
  have hnat : 85 * (sampleSize n - 1) ≤ 100 * ascendingPairs (sampleOf a n) := by
    have h' : (85 : ℚ) * ((sampleSize n - 1 : Nat) : ℚ) ≤
        100 * ((ascendingPairs (sampleOf a n) : Nat) : ℚ) := by linarith
    exact_mod_cast h'
  have hcheck : nearlySortedCheck (ascendingPairs (sampleOf a n)) (sampleSize n) = true := by
    simp only [nearlySortedCheck, Bool.and_eq_true, decide_eq_true_eq]
    exact ⟨h2, by omega⟩
  simp only [analyzeData]
  rw [hcheck]
  rfl

/-- Witness for C5: a 40-element array whose 39 adjacent pairs are all
ascending except one (38/39 ≥ 0.85) is routed to merge even though it
contains a negative value. -/
theorem analyzeData_nearly_sorted_merge_witness :
    2 ≤ sampleSize 40 ∧
    (85 : ℚ) / 100 ≤
      (ascendingPairs (sampleOf dForty 40) : ℚ) / ((sampleSize 40 - 1 : Nat) : ℚ) ∧
    analyzeData dForty 40 = STRATEGY_MERGESORT := by
  have h2 : 2 ≤ sampleSize 40 := by decide
  have hasc : ascendingPairs (sampleOf dForty 40) = 38 := by decide
  have hr : (85 : ℚ) / 100 ≤
      (ascendingPairs (sampleOf dForty 40) : ℚ) / ((sampleSize 40 - 1 : Nat) : ℚ) := by
    rw [hasc]
    norm_num [sampleSize, ANALYSIS_SAMPLE_SIZE]
  exact ⟨h2, hr, analyzeData_nearly_sorted_merge dForty 40 h2 hr⟩

/--
**C3, counterexample.** The sign scan covers only the first
`sample_size - 1` sample positions, so an array whose single negative
value sits at the last sample position is still routed to radix: here
`analyzeData` returns the radix strategy although the sample (all 32
elements) contains `-10 < 0`.
-/
theorem analyzeData_radix_with_negative_in_sample :
    analyzeData arrNeg10 32 = STRATEGY_RADIXSORT ∧
    ((sampleOf arrNeg10 32).any (fun x => x < 0)) = true := by
  constructor <;> decide

/--
**C3, amended.** `analyzeData` returns the radix strategy only if no
element among the first `min(n, SAMPLE_CAP) - 1` elements — the sample
minus its last element, the part the sign scan actually covers — is
negative.
-/
theorem analyzeData_radix_scanned_prefix_nonneg (a : List Int) (n : Nat)
    (h : analyzeData a n = STRATEGY_RADIXSORT) :
    ∀ x ∈ (sampleOf a n).dropLast, 0 ≤ x := by
  intro x hx
  by_contra hneg
  push_neg at hneg
  have hscan : hasNegativeScan (sampleOf a n) = true := by
    simp only [hasNegativeScan, List.any_eq_true, decide_eq_true_eq]
    exact ⟨x, hx, hneg⟩
  simp only [analyzeData] at h
  cases hns : nearlySortedCheck (ascendingPairs (sampleOf a n)) (sampleSize n) with
  | true => rw [hns] at h; exact absurd h (by simp)
  | false =>
    rw [hns, hscan] at h
    simp only [Bool.not_true, Bool.false_eq_true, if_false] at h
    split at h <;> exact absurd h (by simp)

/-- Witness for C3's amended theorem, at `arrNeg5` (which the analyzer
routes to radix): every scanned sample element is non-negative. -/
theorem analyzeData_radix_scanned_prefix_nonneg_witness :
    analyzeData arrNeg5 32 = STRATEGY_RADIXSORT ∧
    ∀ x ∈ (sampleOf arrNeg5 32).dropLast, 0 ≤ x :=
  ⟨by decide, analyzeData_radix_scanned_prefix_nonneg arrNeg5 32 (by decide)⟩

/-! ## The dispatcher -/

/--
**C4.** The dispatcher's size thresholds: arrays of length at most 1 are
returned unchanged; lengths `2..31` go straight to the insertion backend
over the full range `[0, n-1]` (the analysis engine does not run: the
branch is taken before `analyzeData` is consulted); lengths `≥ 32` run
the analysis engine and dispatch to the backend matching the strategy it
returns, over the full range.
-/
theorem adaptiveHybridSort_dispatch (a : List Int) :
    (a.length ≤ 1 → adaptiveHybridSort a = some a) ∧
    (1 < a.length → a.length < INSERTION_SORT_THRESHOLD →
      adaptiveHybridSort a = some (insertionSort a 0 (a.length - 1))) ∧
    (INSERTION_SORT_THRESHOLD ≤ a.length →
      adaptiveHybridSort a =
        match analyzeData a a.length with
        | STRATEGY_MERGESORT => some (mergeSortL a 0 (a.length - 1))
        | STRATEGY_RADIXSORT => radixSort a
        | STRATEGY_QUICKSORT => some (quickSort a 0 (a.length - 1))) := by
  refine ⟨fun h1 => ?_, fun h1 h2 => ?_, fun h1 => ?_⟩
  · unfold adaptiveHybridSort
    rw [if_pos h1]
  · unfold adaptiveHybridSort
    rw [if_neg (by omega), if_pos h2]
  · unfold adaptiveHybridSort
    rw [if_neg (by simp [INSERTION_SORT_THRESHOLD] at h1; omega),
      if_neg (by omega)]

/-- Witness for C4 at lengths 1, 31 and 32: `dThirtyOne` (31 elements)
is insertion-sorted without analysis, `dThirtyTwo` (32 elements) goes
through the analysis engine. -/
theorem adaptiveHybridSort_dispatch_witness :
    (dOne.length ≤ 1 ∧ adaptiveHybridSort dOne = some dOne) ∧
    (1 < dThirtyOne.length ∧ dThirtyOne.length < INSERTION_SORT_THRESHOLD ∧
      adaptiveHybridSort dThirtyOne = some (insertionSort dThirtyOne 0 (dThirtyOne.length - 1))) ∧
    (INSERTION_SORT_THRESHOLD ≤ dThirtyTwo.length ∧
      adaptiveHybridSort dThirtyTwo =
        match analyzeData dThirtyTwo dThirtyTwo.length with
        | STRATEGY_MERGESORT => some (mergeSortL dThirtyTwo 0 (dThirtyTwo.length - 1))
        | STRATEGY_RADIXSORT => radixSort dThirtyTwo
        | STRATEGY_QUICKSORT => some (quickSort dThirtyTwo 0 (dThirtyTwo.length - 1))) :=
  ⟨⟨by decide, (adaptiveHybridSort_dispatch dOne).1 (by decide)⟩,
   ⟨by decide, by decide,
     (adaptiveHybridSort_dispatch dThirtyOne).2.1 (by decide) (by decide)⟩,
   ⟨by decide, (adaptiveHybridSort_dispatch dThirtyTwo).2.2 (by decide)⟩⟩

/-! ## The radix misroute: failing executions -/

/--
**C1.** Failing execution for the order property: on `arrNeg10` the
analyzer picks radix (the sign scan misses the trailing `-10`), the
single counting pass is well defined (`-10` has digit 0) but places
`-10` after `0`: the program returns `[0, -10, 1, …]`, whose first
adjacent pair violates `result[i] <= result[i+1]`.
-/
theorem adaptiveHybridSort_unsorted_output :
    ∃ r, adaptiveHybridSort arrNeg10 = some r ∧ ¬ List.Chain' (· ≤ ·) r :=
  ⟨[0, -10, 1, 1, 1, 2, 2, 2, 3, 3, 3, 4, 4, 4, 5, 5, 5, 6, 6, 6,
      7, 7, 7, 7, 8, 8, 8, 8, 9, 9, 9, 9],
    by decide,
    fun hc => by rw [List.chain'_iff_pairwise] at hc; revert hc; decide⟩

/--
**C2.** Failing execution for the permutation property: on `arrNeg5` the
analyzer picks radix, and the counting pass computes digit `-5` for the
trailing `-5`, indexing the ten-element `count` array out of bounds —
undefined behavior in the C program, `none` in the model.  No result
(in particular no permutation of the input) is produced.
-/
theorem adaptiveHybridSort_undefined_on_radix_negative :
    adaptiveHybridSort arrNeg5 = none := by
  decide

/--
**C7, counterexample.** Idempotence fails: sorting `arrNeg10` once
returns the unsorted `[0, -10, 1, …]` (radix misroute); sorting that
result again routes to merge (its sample is now 30/31 ascending), which
actually sorts it — so `sort (sort S) ≠ sort S`.
-/
theorem adaptiveHybridSort_not_idempotent :
    (adaptiveHybridSort arrNeg10).bind adaptiveHybridSort ≠ adaptiveHybridSort arrNeg10 := by
  decide

/-! ## Frame properties of the in-place backends (C10)

Every write any backend performs on the range `[left, right]` is a
`List.set` at an index inside that range; reads outside the range never
feed a write.  We prove each position outside the range unchanged. -/

theorem getD_set_ne {α : Type} (l : List α) (i p : Nat) (v d : α) (h : i ≠ p) :
    (l.set i v).getD p d = l.getD p d := by
  simp [List.getD_eq_getElem?_getD, List.getElem?_set_ne h]

theorem getD_set_lt {α : Type} (l : List α) (i : Nat) (v d : α) (h : i < l.length) :
    (l.set i v).getD i d = v := by
  simp [List.getD_eq_getElem?_getD, List.getElem?_set_self h]

theorem length_swapL (a : List Int) (i j : Nat) : (swapL a i j).length = a.length := by
  simp [swapL]

theorem swapL_getD_ne (a : List Int) (i j p : Nat) (h1 : i ≠ p) (h2 : j ≠ p) :
    (swapL a i j).getD p 0 = a.getD p 0 := by
  unfold swapL
  rw [getD_set_ne _ _ _ _ _ h2, getD_set_ne _ _ _ _ _ h1]

theorem insInner_length (key : Int) (left : Nat) :
    ∀ (s : Nat) (a : List Int), ((insInner a key left s).1).length = a.length := by
  intro s
  induction s with
  | zero => intro a; unfold insInner; split <;> simp
  | succ s ih =>
    intro a
    unfold insInner
    split
    · rw [ih]; simp
    · rfl

theorem insInner_frame (key : Int) (left : Nat) :
    ∀ (s : Nat) (a : List Int) (p : Nat), p < left ∨ left + s + 1 < p →
      ((insInner a key left s).1).getD p 0 = a.getD p 0 := by
  intro s
  induction s with
  | zero =>
    intro a p hp
    unfold insInner
    split
    · exact getD_set_ne _ _ _ _ _ (by omega)
    · rfl
  | succ s ih =>
    intro a p hp
    unfold insInner
    split
    · rw [ih _ _ (by omega)]
      exact getD_set_ne _ _ _ _ _ (by omega)
    · rfl

theorem insInner_pos (key : Int) (left : Nat) :
    ∀ (s : Nat) (a : List Int),
      left ≤ (insInner a key left s).2 ∧ (insInner a key left s).2 ≤ left + s + 1 := by
  intro s
  induction s with
  | zero => intro a; unfold insInner; split <;> simp
  | succ s ih =>
    intro a
    unfold insInner
    split
    · have := ih (a.set (left + s + 2) (a.getD (left + s + 1) 0))
      omega
    · omega

theorem insStep_length (left : Nat) (a : List Int) (i : Nat) :
    (insStep left a i).length = a.length := by
  unfold insStep
  rw [List.length_set, insInner_length]

theorem insStep_frame (left : Nat) (a : List Int) (i p : Nat) (hi : left + 1 ≤ i)
    (hp : p < left ∨ i < p) : (insStep left a i).getD p 0 = a.getD p 0 := by
  unfold insStep
  have hpos := insInner_pos (a.getD i 0) left (i - 1 - left) a
  rw [getD_set_ne _ _ _ _ _ (by omega)]
  exact insInner_frame _ _ _ _ _ (by omega)

theorem insFold_frame (left right : Nat) :
    ∀ (js : List Nat) (a : List Int) (q : Nat),
      (∀ j ∈ js, left + 1 ≤ j ∧ j ≤ right) → (q < left ∨ right < q) →
      (js.foldl (insStep left) a).getD q 0 = a.getD q 0 := by
  intro js
  induction js with
  | nil => intro a q _ _; rfl
  | cons j js ih =>
    intro a q hjs hq
    have hj := hjs j (by simp)
    rw [List.foldl_cons, ih _ _ (fun j hjm => hjs j (by simp [hjm])) hq]
    exact insStep_frame left a j q hj.1 (by omega)

theorem insFold_length (left : Nat) :
    ∀ (js : List Nat) (a : List Int),
      (js.foldl (insStep left) a).length = a.length := by
  intro js
  induction js with
  | nil => intro a; rfl
  | cons j js ih => intro a; rw [List.foldl_cons, ih, insStep_length]

theorem insertionSort_frame (a : List Int) (left right q : Nat)
    (hq : q < left ∨ right < q) :
    (insertionSort a left right).getD q 0 = a.getD q 0 := by
  unfold insertionSort
  refine insFold_frame left right _ a q (fun j hj => ?_) hq
  rw [List.mem_range'_1] at hj
  omega

theorem insertionSort_length (a : List Int) (left right : Nat) :
    (insertionSort a left right).length = a.length :=
  insFold_length left _ a

theorem partitionAux (pivot : Int) (low : Nat) :
    ∀ (k start : Nat) (a : List Int) (i1 : Nat), low ≤ i1 → i1 ≤ start →
      (∀ p, p < low ∨ start + k ≤ p →
        (((List.range' start k).foldl
          (fun st j => if st.1.getD j 0 < pivot then (swapL st.1 st.2 j, st.2 + 1) else st)
          (a, i1)).1).getD p 0 = a.getD p 0) ∧
      low ≤ ((List.range' start k).foldl
          (fun st j => if st.1.getD j 0 < pivot then (swapL st.1 st.2 j, st.2 + 1) else st)
          (a, i1)).2 ∧
      ((List.range' start k).foldl
          (fun st j => if st.1.getD j 0 < pivot then (swapL st.1 st.2 j, st.2 + 1) else st)
          (a, i1)).2 ≤ start + k ∧
      (((List.range' start k).foldl
          (fun st j => if st.1.getD j 0 < pivot then (swapL st.1 st.2 j, st.2 + 1) else st)
          (a, i1)).1).length = a.length := by
  intro k
  induction k with
  | zero =>
    intro start a i1 h1 h2
    exact ⟨fun p _ => rfl, by simpa using h1, by simpa using h2, rfl⟩
  | succ k ih =>
    intro start a i1 h1 h2
    rw [List.range'_succ, List.foldl_cons]
    dsimp only
    by_cases hc : a.getD start 0 < pivot
    · rw [if_pos hc]
      have := ih (start + 1) (swapL a i1 start) (i1 + 1) (by omega) (by omega)
      refine ⟨fun p hp => ?_, by omega, by omega, by rw [this.2.2.2, length_swapL]⟩
      rw [this.1 p (by omega)]
      exact swapL_getD_ne _ _ _ _ (by omega) (by omega)
    · rw [if_neg hc]
      have := ih (start + 1) a i1 h1 (by omega)
      exact ⟨fun p hp => this.1 p (by omega), this.2.1, by omega, this.2.2.2⟩

theorem partitionL_frame (a : List Int) (low high : Nat) (hlh : low ≤ high) :
    (∀ p, p < low ∨ high < p →
      ((partitionL a low high).1).getD p 0 = a.getD p 0) ∧
    low ≤ (partitionL a low high).2 ∧ (partitionL a low high).2 ≤ high ∧
    ((partitionL a low high).1).length = a.length := by
  unfold partitionL partitionFold
  dsimp only
  have h := partitionAux (a.getD high 0) low (high - low) low a low le_rfl le_rfl
  have hklow : low + (high - low) = high := by omega
  rw [hklow] at h
  refine ⟨fun p hp => ?_, h.2.1, by omega, by rw [length_swapL]; exact h.2.2.2⟩
  rw [swapL_getD_ne _ _ _ _ (by omega) (by omega)]
  exact h.1 p (by omega)

theorem quickSortRec_frame :
    ∀ (fuel : Nat) (a : List Int) (low high p : Nat), p < low ∨ high < p →
      (quickSortRec fuel a low high).getD p 0 = a.getD p 0 := by
  intro fuel
  induction fuel with
  | zero => intro a low high p _; rfl
  | succ fuel ih =>
    intro a low high p hp
    unfold quickSortRec
    by_cases hlh : low < high
    · rw [if_pos hlh]
      by_cases hsmall : high - low + 1 < INSERTION_SORT_THRESHOLD
      · rw [if_pos hsmall]
        exact insertionSort_frame a low high p hp
      · rw [if_neg hsmall]
        have hpart := partitionL_frame a low high (by omega)
        rw [ih _ _ _ _ (by omega), ih _ _ _ _ (by omega)]
        exact hpart.1 p hp
    · rw [if_neg hlh]

theorem quickSortRec_length :
    ∀ (fuel : Nat) (a : List Int) (low high : Nat),
      (quickSortRec fuel a low high).length = a.length := by
  intro fuel
  induction fuel with
  | zero => intro a low high; rfl
  | succ fuel ih =>
    intro a low high
    unfold quickSortRec
    by_cases hlh : low < high
    · rw [if_pos hlh]
      by_cases hsmall : high - low + 1 < INSERTION_SORT_THRESHOLD
      · rw [if_pos hsmall]
        exact insertionSort_length a low high
      · rw [if_neg hsmall]
        rw [ih, ih]
        exact (partitionL_frame a low high (by omega)).2.2.2
    · rw [if_neg hlh]

theorem mergeWrite_frame :
    ∀ (fuel : Nat) (a : List Int) (k : Nat) (L R : List Int) (p : Nat),
      p < k ∨ k + L.length + R.length ≤ p →
      (mergeWrite fuel a k L R).getD p 0 = a.getD p 0 := by
  intro fuel
  induction fuel with
  | zero => intro a k L R p _; rfl
  | succ fuel ih =>
    intro a k L R p hp
    unfold mergeWrite
    match L, R with
    | [], [] => rfl
    | [], y :: ys =>
      simp only
      rw [ih _ _ _ _ _ (by simp at hp ⊢; omega)]
      exact getD_set_ne _ _ _ _ _ (by simp at hp; omega)
    | x :: xs, [] =>
      simp only
      rw [ih _ _ _ _ _ (by simp at hp ⊢; omega)]
      exact getD_set_ne _ _ _ _ _ (by simp at hp; omega)
    | x :: xs, y :: ys =>
      simp only
      split
      · rw [ih _ _ _ _ _ (by simp at hp ⊢; omega)]
        exact getD_set_ne _ _ _ _ _ (by simp at hp; omega)
      · rw [ih _ _ _ _ _ (by simp at hp ⊢; omega)]
        exact getD_set_ne _ _ _ _ _ (by simp at hp; omega)

theorem mergeWrite_length :
    ∀ (fuel : Nat) (a : List Int) (k : Nat) (L R : List Int),
      (mergeWrite fuel a k L R).length = a.length := by
  intro fuel
  induction fuel with
  | zero => intro a k L R; rfl
  | succ fuel ih =>
    intro a k L R
    unfold mergeWrite
    match L, R with
    | [], [] => rfl
    | [], y :: ys => simp only; rw [ih, List.length_set]
    | x :: xs, [] => simp only; rw [ih, List.length_set]
    | x :: xs, y :: ys => simp only; split <;> rw [ih, List.length_set]

theorem length_segment (a : List Int) (l r : Nat) :
    (segment a l r).length = min (r + 1 - l) (a.length - l) := by
  simp [segment]

theorem mergeRange_frame (a : List Int) (l m r p : Nat) (hlm : l ≤ m) (hmr : m ≤ r)
    (hp : p < l ∨ r < p) : (mergeRange a l m r).getD p 0 = a.getD p 0 := by
  unfold mergeRange
  refine mergeWrite_frame _ a l _ _ p ?_
  have h1 := length_segment a l m
  have h2 := length_segment a (m + 1) r
  omega

theorem mergeRange_length (a : List Int) (l m r : Nat) :
    (mergeRange a l m r).length = a.length :=
  mergeWrite_length _ a l _ _

theorem mergeSortRec_frame :
    ∀ (fuel : Nat) (a : List Int) (l r p : Nat), p < l ∨ r < p →
      (mergeSortRec fuel a l r).getD p 0 = a.getD p 0 := by
  intro fuel
  induction fuel with
  | zero => intro a l r p _; rfl
  | succ fuel ih =>
    intro a l r p hp
    unfold mergeSortRec
    by_cases hlr : l < r
    · rw [if_pos hlr]
      rw [mergeRange_frame _ _ _ _ _ (by omega) (by omega) hp]
      rw [ih _ _ _ _ (by omega), ih _ _ _ _ (by omega)]
    · rw [if_neg hlr]

theorem mergeSortRec_length :
    ∀ (fuel : Nat) (a : List Int) (l r : Nat),
      (mergeSortRec fuel a l r).length = a.length := by
  intro fuel
  induction fuel with
  | zero => intro a l r; rfl
  | succ fuel ih =>
    intro a l r
    unfold mergeSortRec
    by_cases hlr : l < r
    · rw [if_pos hlr, mergeRange_length, ih, ih]
    · rw [if_neg hlr]

/--
**C10.** Frame property of the three in-place backends: on any array,
`insertionSort(arr, left, right)`, `quickSort(arr, left, right)` and
`mergeSort(arr, left, right)` leave every position outside `[left,
right]` unchanged (and preserve the array's length).
-/
theorem backends_frame (a : List Int) (left right p : Nat)
    (hp : p < left ∨ right < p) :
    (insertionSort a left right).getD p 0 = a.getD p 0 ∧
    (quickSort a left right).getD p 0 = a.getD p 0 ∧
    (mergeSortL a left right).getD p 0 = a.getD p 0 ∧
    (insertionSort a left right).length = a.length ∧
    (quickSort a left right).length = a.length ∧
    (mergeSortL a left right).length = a.length :=
  ⟨insertionSort_frame a left right p hp,
   quickSortRec_frame _ a left right p hp,
   mergeSortRec_frame _ a left right p hp,
   insertionSort_length a left right,
   quickSortRec_length _ a left right,
   mergeSortRec_length _ a left right⟩

/-- Witness for C10: sorting the middle range `[1, 3]` of a concrete
array leaves position 0 (and position 4) unchanged. -/
theorem backends_frame_witness :
    ((0 : Nat) < 1 ∨ (3 : Nat) < 0) ∧
    ((insertionSort [9, 5, 1, 4, 2, 8] 1 3).getD 0 0 = ([9, 5, 1, 4, 2, 8] : List Int).getD 0 0 ∧
     (quickSort [9, 5, 1, 4, 2, 8] 1 3).getD 0 0 = ([9, 5, 1, 4, 2, 8] : List Int).getD 0 0 ∧
     (mergeSortL [9, 5, 1, 4, 2, 8] 1 3).getD 0 0 = ([9, 5, 1, 4, 2, 8] : List Int).getD 0 0 ∧
     (insertionSort [9, 5, 1, 4, 2, 8] 1 3).length = ([9, 5, 1, 4, 2, 8] : List Int).length ∧
     (quickSort [9, 5, 1, 4, 2, 8] 1 3).length = ([9, 5, 1, 4, 2, 8] : List Int).length ∧
     (mergeSortL [9, 5, 1, 4, 2, 8] 1 3).length = ([9, 5, 1, 4, 2, 8] : List Int).length) :=
  ⟨Or.inl (by decide), backends_frame [9, 5, 1, 4, 2, 8] 1 3 0 (Or.inl (by decide))⟩

/-! ## Already-sorted inputs are fixed points

On a sorted array the insertion backend shifts nothing, the merge
backend copies every cell onto itself, and the analysis engine sees all
adjacent pairs ascending (so a large sorted array is routed to merge).
These give the amended idempotence property. -/

theorem set_getD_self {α : Type} :
    ∀ (l : List α) (i : Nat) (d : α), i < l.length → l.set i (l.getD i d) = l
  | [], i, d, h => absurd h (by simp)
  | x :: xs, 0, d, _ => rfl
  | x :: xs, i + 1, d, h => by
    simp only [List.set_cons_succ, List.getD_cons_succ]
    rw [set_getD_self xs i d (by simpa using h)]

theorem pairwise_getD_le (a : List Int) (h : List.Pairwise (· ≤ ·) a) (i : Nat)
    (hi : i + 1 < a.length) : a.getD i 0 ≤ a.getD (i + 1) 0 := by
  rw [List.getD_eq_getElem a 0 (by omega), List.getD_eq_getElem a 0 hi]
  rw [List.pairwise_iff_getElem] at h
  exact h i (i + 1) (by omega) hi (by omega)

theorem rangeSorted_le (a : List Int) (l r : Nat)
    (hs : ∀ i, l ≤ i → i < r → a.getD i 0 ≤ a.getD (i + 1) 0) :
    ∀ j, l ≤ j → j ≤ r → ∀ i, l ≤ i → i ≤ j → a.getD i 0 ≤ a.getD j 0 := by
  intro j
  induction j with
  | zero =>
    intro _ _ i hi1 hi2
    have hiz : i = 0 := by omega
    rw [hiz]
  | succ j ih =>
    intro hj1 hj2 i hi1 hi2
    rcases Nat.eq_or_lt_of_le hi2 with he | hlt
    · rw [he]
    · calc a.getD i 0 ≤ a.getD j 0 := by
            rcases le_or_lt l j with hlj | hjl
            · exact ih hlj (by omega) i hi1 (by omega)
            · omega
          _ ≤ a.getD (j + 1) 0 := hs j (by omega) (by omega)

theorem insInner_no_shift (a : List Int) (key : Int) (left : Nat) :
    ∀ s, ¬ (key < a.getD (left + s) 0) → insInner a key left s = (a, left + s + 1) := by
  intro s h
  cases s with
  | zero => unfold insInner; rw [if_neg (by simpa using h)]
  | succ s =>
    unfold insInner
    rw [if_neg (by simpa using h)]
    simp only [Prod.mk.injEq]
    exact ⟨trivial, by omega⟩

theorem insStep_sorted (left : Nat) (a : List Int) (i : Nat) (hi : left + 1 ≤ i)
    (hlen : i < a.length) (hs : a.getD (i - 1) 0 ≤ a.getD i 0) :
    insStep left a i = a := by
  unfold insStep
  dsimp only
  have hj : left + (i - 1 - left) = i - 1 := by omega
  rw [insInner_no_shift a _ left (i - 1 - left) (by rw [hj]; omega)]
  have hi1 : left + (i - 1 - left) + 1 = i := by omega
  rw [hi1]
  exact set_getD_self a i 0 hlen

theorem insFold_sorted (left right : Nat) (a : List Int) (hlen : right < a.length)
    (hs : ∀ i, left ≤ i → i < right → a.getD i 0 ≤ a.getD (i + 1) 0) :
    ∀ (js : List Nat), (∀ j ∈ js, left + 1 ≤ j ∧ j ≤ right) →
      js.foldl (insStep left) a = a := by
  intro js
  induction js with
  | nil => intro _; rfl
  | cons j js ih =>
    intro hjs
    have hj := hjs j (by simp)
    rw [List.foldl_cons,
      insStep_sorted left a j hj.1 (by omega)
        (by have := hs (j - 1) (by omega) (by omega); rwa [Nat.sub_add_cancel (by omega)] at this),
      ih (fun j hjm => hjs j (by simp [hjm]))]

theorem insertionSort_sorted_fixed (a : List Int) (left right : Nat)
    (hlen : right < a.length)
    (hs : ∀ i, left ≤ i → i < right → a.getD i 0 ≤ a.getD (i + 1) 0) :
    insertionSort a left right = a := by
  unfold insertionSort
  refine insFold_sorted left right a hlen hs _ (fun j hj => ?_)
  rw [List.mem_range'_1] at hj
  omega

theorem segment_getD (a : List Int) (l r i : Nat) (hi : i < (segment a l r).length) :
    (segment a l r).getD i 0 = a.getD (l + i) 0 := by
  unfold segment at hi ⊢
  rw [List.getD_eq_getElem _ 0 hi]
  rw [List.getElem_take, List.getElem_drop]
  rw [List.getD_eq_getElem a 0 (by simp at hi; omega)]

theorem mergeWrite_copy_fixed :
    ∀ (fuel : Nat) (L R : List Int) (a : List Int) (k : Nat),
      L.length + R.length ≤ fuel →
      (∀ x ∈ L, ∀ y ∈ R, x ≤ y) →
      (∀ i, i < L.length → L.getD i 0 = a.getD (k + i) 0) →
      (∀ j, j < R.length → R.getD j 0 = a.getD (k + L.length + j) 0) →
      k + L.length + R.length ≤ a.length →
      mergeWrite fuel a k L R = a := by
  intro fuel
  induction fuel with
  | zero =>
    intro L R a k hfuel _ _ _ _
    cases L with
    | cons x xs => simp at hfuel
    | nil =>
      cases R with
      | cons y ys => simp at hfuel
      | nil => rfl
  | succ fuel ih =>
    intro L R a k hfuel hLR hLa hRa hlen
    unfold mergeWrite
    match L, R with
    | [], [] => rfl
    | [], y :: ys =>
      simp only
      have hy : y = a.getD k 0 := by simpa using hRa 0 (by simp)
      rw [hy, set_getD_self a k 0 (by simp at hlen; omega)]
      refine ih [] ys a (k + 1) (by simp at hfuel ⊢; omega) (by simp) (by simp) ?_
        (by simp at hlen ⊢; omega)
      intro j hj
      have := hRa (j + 1) (by simp at hj ⊢; omega)
      simpa [Nat.add_assoc, Nat.add_comm, Nat.add_left_comm] using this
    | x :: xs, [] =>
      simp only
      have hx : x = a.getD k 0 := by simpa using hLa 0 (by simp)
      rw [hx, set_getD_self a k 0 (by simp at hlen; omega)]
      refine ih xs [] a (k + 1) (by simp at hfuel ⊢; omega) (by simp) ?_ (by simp)
        (by simp at hlen ⊢; omega)
      intro i hi
      have := hLa (i + 1) (by simp at hi ⊢; omega)
      simpa [Nat.add_assoc, Nat.add_comm, Nat.add_left_comm] using this
    | x :: xs, y :: ys =>
      simp only
      have hxy : x ≤ y := hLR x (by simp) y (by simp)
      rw [if_pos hxy]
      have hx : x = a.getD k 0 := by simpa using hLa 0 (by simp)
      rw [hx, set_getD_self a k 0 (by simp at hlen; omega)]
      refine ih xs (y :: ys) a (k + 1) (by simp at hfuel ⊢; omega)
        (fun x2 hx2 y2 hy2 => hLR x2 (by simp [hx2]) y2 hy2) ?_ ?_
        (by simp at hlen ⊢; omega)
      · intro i hi
        have := hLa (i + 1) (by simp at hi ⊢; omega)
        simpa [Nat.add_assoc, Nat.add_comm, Nat.add_left_comm] using this
      · intro j hj
        have := hRa j (by simpa using hj)
        simp at this ⊢
        rw [this]
        ring_nf

theorem mergeRange_sorted_fixed (a : List Int) (l m r : Nat)
    (hlm : l ≤ m) (hmr : m ≤ r) (hlen : r < a.length)
    (hs : ∀ i, l ≤ i → i < r → a.getD i 0 ≤ a.getD (i + 1) 0) :
    mergeRange a l m r = a := by
  unfold mergeRange
  have hL : (segment a l m).length = m + 1 - l := by
    rw [length_segment]; omega
  have hR : (segment a (m + 1) r).length = r - m := by
    rw [length_segment]; omega
  refine mergeWrite_copy_fixed _ _ _ a l le_rfl ?_ ?_ ?_ ?_
  · intro x hx y hy
    obtain ⟨i, hi, hxi⟩ := List.getElem_of_mem hx
    obtain ⟨j, hj, hyj⟩ := List.getElem_of_mem hy
    have hxg : x = a.getD (l + i) 0 := by
      rw [← hxi, ← segment_getD a l m i (by omega), List.getD_eq_getElem _ 0 hi]
    have hyg : y = a.getD (m + 1 + j) 0 := by
      rw [← hyj, ← segment_getD a (m + 1) r j (by omega), List.getD_eq_getElem _ 0 hj]
    rw [hxg, hyg]
    exact rangeSorted_le a l r hs (m + 1 + j) (by omega) (by omega) (l + i) (by omega)
      (by omega)
  · intro i hi
    exact segment_getD a l m i hi
  · intro j hj
    rw [segment_getD a (m + 1) r j hj, hL]
    congr 1
    omega
  · omega

theorem mergeSortRec_sorted_fixed :
    ∀ (fuel : Nat) (a : List Int) (l r : Nat), r < a.length →
      (∀ i, l ≤ i → i < r → a.getD i 0 ≤ a.getD (i + 1) 0) →
      mergeSortRec fuel a l r = a := by
  intro fuel
  induction fuel with
  | zero => intro a l r _ _; rfl
  | succ fuel ih =>
    intro a l r hlen hs
    unfold mergeSortRec
    by_cases hlr : l < r
    · rw [if_pos hlr]
      dsimp only
      have hm1 : l ≤ l + (r - l) / 2 := by omega
      have hm2 : l + (r - l) / 2 ≤ r := by omega
      rw [ih a l (l + (r - l) / 2) (by omega) (fun i h1 h2 => hs i h1 (by omega)),
        ih a (l + (r - l) / 2 + 1) r hlen (fun i h1 h2 => hs i (by omega) h2)]
      exact mergeRange_sorted_fixed a l _ r hm1 hm2 hlen hs
    · rw [if_neg hlr]

theorem ascendingPairs_of_sorted :
    ∀ (s : List Int), List.Pairwise (· ≤ ·) s → ascendingPairs s = s.length - 1 := by
  intro s
  induction s with
  | nil => intro _; rfl
  | cons x t ih =>
    intro h
    cases t with
    | nil => rfl
    | cons y t2 =>
      have hxy : x ≤ y := (List.pairwise_cons.mp h).1 y (by simp)
      have ht := (List.pairwise_cons.mp h).2
      have ihy := ih ht
      simp only [ascendingPairs, List.tail_cons, List.zip_cons_cons, List.countP_cons,
        List.length_cons] at ihy ⊢
      rw [if_pos (by simpa using hxy)]
      omega

/-- Any sorted array is a fixed point of the dispatcher: small arrays
shift nothing in the insertion backend, large ones are routed to merge
(all sample pairs ascend) and the merge backend copies each cell onto
itself. -/
theorem adaptiveHybridSort_sorted_fixed (a : List Int)
    (h : List.Pairwise (· ≤ ·) a) : adaptiveHybridSort a = some a := by
  unfold adaptiveHybridSort
  by_cases h1 : a.length ≤ 1
  · rw [if_pos h1]
  · rw [if_neg h1]
    by_cases h2 : a.length < INSERTION_SORT_THRESHOLD
    · rw [if_pos h2]
      rw [insertionSort_sorted_fixed a 0 (a.length - 1) (by omega)
        (fun i _ hi => pairwise_getD_le a h i (by omega))]
    · rw [if_neg h2]
      have hss : sampleSize a.length = min a.length 100 := rfl
      have hlen : (sampleOf a a.length).length = min a.length 100 := by
        simp [sampleOf, hss]
      have hsub : List.Pairwise (· ≤ ·) (sampleOf a a.length) :=
        List.Pairwise.sublist (List.take_sublist _ _) h
      have hasc : ascendingPairs (sampleOf a a.length) = min a.length 100 - 1 := by
        rw [ascendingPairs_of_sorted _ hsub, hlen]
      have hcheck : nearlySortedCheck (ascendingPairs (sampleOf a a.length))
          (sampleSize a.length) = true := by
        simp only [nearlySortedCheck, hasc, hss, Bool.and_eq_true, decide_eq_true_eq]
        constructor
        · simp [INSERTION_SORT_THRESHOLD] at h2; omega
        · omega
      have hana : analyzeData a a.length = STRATEGY_MERGESORT := by
        simp only [analyzeData]
        rw [hcheck]
        rfl
      rw [hana]
      dsimp only
      unfold mergeSortL
      rw [mergeSortRec_sorted_fixed _ a 0 (a.length - 1) (by omega)
        (fun i _ hi => pairwise_getD_le a h i (by omega))]

/--
**C7, amended.** Idempotence holds on every input whose sort output is
non-decreasing (every input that does not hit the radix misroute on
negative data): if `sort S` returns a sorted result then
`sort (sort S) = sort S`.
-/
theorem adaptiveHybridSort_idempotent_of_sorted (a r : List Int)
    (h1 : adaptiveHybridSort a = some r) (h2 : List.Pairwise (· ≤ ·) r) :
    (adaptiveHybridSort a).bind adaptiveHybridSort = adaptiveHybridSort a := by
  rw [h1]
  show adaptiveHybridSort r = some r
  exact adaptiveHybridSort_sorted_fixed r h2

/-- Witness for C7's amended theorem at `[3, 1, 2]`. -/
theorem adaptiveHybridSort_idempotent_of_sorted_witness :
    adaptiveHybridSort [3, 1, 2] = some [1, 2, 3] ∧
    List.Pairwise (· ≤ ·) ([1, 2, 3] : List Int) ∧
    (adaptiveHybridSort [3, 1, 2]).bind adaptiveHybridSort = adaptiveHybridSort [3, 1, 2] :=
  ⟨by decide, by decide,
    adaptiveHybridSort_idempotent_of_sorted [3, 1, 2] [1, 2, 3] (by decide) (by decide)⟩

/-! ## The radix backend (C6)

We verify `countingSortForRadix` against the stable bucket description
(`stableDigitPass`) and then run the classic LSD induction: after the
pass on digit position `k`, the list is stably ordered by value modulo
`10^(k+1)`. -/

/-! ### Digit arithmetic -/

theorem digitAt_lt_ten (exp x : Int) : digitAt exp x < 10 :=
  Int.tmod_lt_of_pos _ (by norm_num)

theorem dN_lt_ten (exp x : Int) : (digitAt exp x).toNat < 10 := by
  have := digitAt_lt_ten exp x
  omega

theorem digitAt_nonneg (exp x : Int) (hx : 0 ≤ x) (he : 0 ≤ exp) :
    0 ≤ digitAt exp x := by
  unfold digitAt
  have h1 : 0 ≤ x.tdiv exp := Int.tdiv_nonneg hx he
  rw [Int.tmod_eq_emod h1 (by norm_num)]
  exact Int.emod_nonneg _ (by norm_num)

theorem digitAt_pow (k : Nat) (x : Int) (hx : 0 ≤ x) :
    digitAt ((10 : Int) ^ k) x = (x / 10 ^ k) % 10 := by
  unfold digitAt
  rw [Int.tdiv_eq_ediv hx (by positivity),
    Int.tmod_eq_emod (Int.ediv_nonneg hx (by positivity)) (by norm_num)]

/-- The key decomposition behind LSD radix: for non-negative `x`, the
residue modulo `10^(k+1)` splits into the digit at position `k` and the
residue modulo `10^k`. -/
theorem emod_pow_succ (x : Int) (hx : 0 ≤ x) (k : Nat) :
    x % ((10 : Int) ^ (k + 1)) = 10 ^ k * ((x / 10 ^ k) % 10) + x % 10 ^ k := by
  have hB : (0 : Int) < 10 ^ k := by positivity
  have h1 : (10 : Int) ^ k * (x / 10 ^ k) + x % 10 ^ k = x := Int.ediv_add_emod x _
  have h2 : (10 : Int) * (x / 10 ^ k / 10) + (x / 10 ^ k) % 10 = x / 10 ^ k :=
    Int.ediv_add_emod _ _
  have hr1 : (0 : Int) ≤ x % 10 ^ k := Int.emod_nonneg _ (by positivity)
  have hr2 : x % 10 ^ k < 10 ^ k := Int.emod_lt_of_pos _ hB
  have hd1 : (0 : Int) ≤ (x / 10 ^ k) % 10 := Int.emod_nonneg _ (by norm_num)
  have hd2 : (x / 10 ^ k) % 10 < 10 := Int.emod_lt_of_pos _ (by norm_num)
  have hx2 : x = 10 ^ k * ((x / 10 ^ k) % 10) + x % 10 ^ k
      + 10 ^ (k + 1) * (x / 10 ^ k / 10) := by
    rw [pow_succ]
    nlinarith [h1, h2]
  calc x % ((10 : Int) ^ (k + 1))
      = (10 ^ k * ((x / 10 ^ k) % 10) + x % 10 ^ k
          + 10 ^ (k + 1) * (x / 10 ^ k / 10)) % 10 ^ (k + 1) := by rw [← hx2]
    _ = (10 ^ k * ((x / 10 ^ k) % 10) + x % 10 ^ k) % 10 ^ (k + 1) := by
          rw [Int.add_mul_emod_self_left]
    _ = 10 ^ k * ((x / 10 ^ k) % 10) + x % 10 ^ k := by
          refine Int.emod_eq_of_lt (by positivity) ?_
          have : (10 : Int) ^ (k + 1) = 10 ^ k * 10 := pow_succ 10 k
          nlinarith

/-! ### Helpers about `countP` -/

theorem countP_congr_mem {α : Type} (l : List α) (p q : α → Bool)
    (h : ∀ x ∈ l, p x = q x) : l.countP p = l.countP q := by
  induction l with
  | nil => rfl
  | cons x t ih =>
    simp only [List.countP_cons, h x (by simp), ih (fun y hy => h y (by simp [hy]))]

theorem countP_or_disjoint {α : Type} (p q : α → Bool)
    (h : ∀ x, ¬(p x = true ∧ q x = true)) :
    ∀ l : List α, l.countP (fun x => p x || q x) = l.countP p + l.countP q := by
  intro l
  induction l with
  | nil => rfl
  | cons x t ih =>
    simp only [List.countP_cons, ih]
    cases hp : p x <;> cases hq : q x <;> simp [hp, hq] <;> try omega
    exact absurd ⟨hp, hq⟩ (h x)

/-! ### The counting loop (`count[digit]++`) -/

theorem countAcc_aux (exp : Int) (d : Nat) :
    ∀ (l : List Int) (c : List Nat), c.length = 10 →
      (l.foldl (fun c x => c.set (digitAt exp x).toNat
          (c.getD (digitAt exp x).toNat 0 + 1)) c).length = 10 ∧
      (l.foldl (fun c x => c.set (digitAt exp x).toNat
          (c.getD (digitAt exp x).toNat 0 + 1)) c).getD d 0
        = c.getD d 0 + l.countP (fun x => decide ((digitAt exp x).toNat = d)) := by
  intro l
  induction l with
  | nil => intro c hc; exact ⟨hc, by simp⟩
  | cons x t ih =>
    intro c hc
    rw [List.foldl_cons]
    have hset : (c.set (digitAt exp x).toNat (c.getD (digitAt exp x).toNat 0 + 1)).length = 10 := by
      rw [List.length_set, hc]
    have hrec := ih _ hset
    refine ⟨hrec.1, ?_⟩
    rw [hrec.2, List.countP_cons]
    by_cases hxd : (digitAt exp x).toNat = d
    · have hdlt : d < 10 := hxd ▸ dN_lt_ten exp x
      rw [hxd, getD_set_lt _ _ _ _ (by rw [hc]; exact hdlt)]
      simp [hxd]
      omega
    · rw [getD_set_ne _ _ _ _ _ hxd]
      simp [hxd]

theorem countAcc_length (exp : Int) (a : List Int) : (countAcc exp a).length = 10 :=
  (countAcc_aux exp 0 a (List.replicate 10 0) (by simp)).1

theorem countAcc_getD (exp : Int) (a : List Int) (d : Nat) :
    (countAcc exp a).getD d 0 = a.countP (fun x => decide ((digitAt exp x).toNat = d)) := by
  have h := (countAcc_aux exp d a (List.replicate 10 0) (by simp)).2
  unfold countAcc
  rw [h]
  have hz : (List.replicate 10 (0 : Nat)).getD d 0 = 0 := by
    simp only [List.getD_eq_getElem?_getD, List.getElem?_replicate]
    split <;> rfl
  rw [hz, Nat.zero_add]

/-! ### The prefix-sum loop (`count[i] += count[i-1]`) -/

theorem prefixLoop_parts (c : List Nat) (hc : c.length = 10) :
    (prefixLoop c).length = 10 ∧
    (prefixLoop c).getD 0 0 = c.getD 0 0 ∧
    (∀ d, d + 1 < 10 →
      (prefixLoop c).getD (d + 1) 0 = c.getD (d + 1) 0 + (prefixLoop c).getD d 0) := by
  match c, hc with
  | [c0, c1, c2, c3, c4, c5, c6, c7, c8, c9], _ =>
    refine ⟨rfl, rfl, ?_⟩
    intro d hd
    have hd8 : d ≤ 8 := by omega
    interval_cases d <;> rfl

theorem prefixLoop_countAcc (exp : Int) (a : List Int) :
    ∀ d, d < 10 → (prefixLoop (countAcc exp a)).getD d 0
      = a.countP (fun x => decide ((digitAt exp x).toNat ≤ d)) := by
  have hp := prefixLoop_parts (countAcc exp a) (countAcc_length exp a)
  intro d
  induction d with
  | zero =>
    intro _
    rw [hp.2.1, countAcc_getD]
    exact countP_congr_mem _ _ _ (fun x _ => by simp [Nat.le_zero])
  | succ d ih =>
    intro hd
    rw [hp.2.2 d hd, ih (by omega), countAcc_getD]
    have hsplit := countP_or_disjoint
      (fun x : Int => decide ((digitAt exp x).toNat = d + 1))
      (fun x : Int => decide ((digitAt exp x).toNat ≤ d))
      (fun x => by simp; omega) a
    rw [← hsplit]
    exact countP_congr_mem a
      (fun x => decide ((digitAt exp x).toNat = d + 1) || decide ((digitAt exp x).toNat ≤ d))
      (fun x => decide ((digitAt exp x).toNat ≤ d + 1))
      (fun x _ => by
        show (decide ((digitAt exp x).toNat = d + 1) || decide ((digitAt exp x).toNat ≤ d))
            = decide ((digitAt exp x).toNat ≤ d + 1)
        rw [Bool.eq_iff_iff]
        simp only [Bool.or_eq_true, decide_eq_true_eq]
        omega)

/-! ### The placement loop (`output[count[d]-1] = arr[i]; count[d]--`)

The invariant: after the (right-to-left) placement of a suffix `l`, the
counter for each digit `d` has dropped by the number of `l`-elements
with digit `d`, and the `out` buffer holds, in the now-vacated slots
just below each counter, exactly those elements in their input order —
i.e. the stable bucket layout. -/

theorem placeLoop_cons (exp x : Int) (rest : List Int) (c : List Nat)
    (out : List (Option Int)) :
    placeLoop exp (x :: rest) c out =
      ((placeLoop exp rest c out).1.set (digitAt exp x).toNat
        ((placeLoop exp rest c out).1.getD (digitAt exp x).toNat 0 - 1),
       (placeLoop exp rest c out).2.set
        ((placeLoop exp rest c out).1.getD (digitAt exp x).toNat 0 - 1) (some x)) := rfl

theorem placeLoop_spec (exp : Int) :
    ∀ (l : List Int) (c0 : List Nat) (out0 : List (Option Int)),
      c0.length = 10 →
      (∀ d, d < 10 → l.countP (fun z => decide ((digitAt exp z).toNat = d)) ≤ c0.getD d 0) →
      (∀ d e, d < e → e < 10 →
        c0.getD d 0 ≤ c0.getD e 0 - l.countP (fun z => decide ((digitAt exp z).toNat = e))) →
      (∀ d, d < 10 → c0.getD d 0 ≤ out0.length) →
      (placeLoop exp l c0 out0).1.length = 10 ∧
      (∀ d, d < 10 → (placeLoop exp l c0 out0).1.getD d 0
          = c0.getD d 0 - l.countP (fun z => decide ((digitAt exp z).toNat = d))) ∧
      (placeLoop exp l c0 out0).2.length = out0.length ∧
      (∀ p, (∀ d, d < 10 →
          p < c0.getD d 0 - l.countP (fun z => decide ((digitAt exp z).toNat = d)) ∨
            c0.getD d 0 ≤ p) →
        (placeLoop exp l c0 out0).2.getD p none = out0.getD p none) ∧
      (∀ d, d < 10 → ∀ i, i < l.countP (fun z => decide ((digitAt exp z).toNat = d)) →
        (placeLoop exp l c0 out0).2.getD
            (c0.getD d 0 - l.countP (fun z => decide ((digitAt exp z).toNat = d)) + i) none
          = some ((l.filter (fun z => decide ((digitAt exp z).toNat = d))).getD i 0)) := by
  intro l
  induction l with
  | nil =>
    intro c0 out0 hc _ _ _
    exact ⟨hc, fun d _ => by simp [placeLoop], rfl, fun p _ => rfl,
      fun d _ i hi => absurd hi (by simp)⟩
  | cons x rest ih =>
    intro c0 out0 hc hle hsep hbound
    have hdx10 : (digitAt exp x).toNat < 10 := dN_lt_ten exp x
    have hcnt : ∀ d, (x :: rest).countP (fun z => decide ((digitAt exp z).toNat = d))
        = rest.countP (fun z => decide ((digitAt exp z).toNat = d))
          + (if (digitAt exp x).toNat = d then 1 else 0) := by
      intro d
      rw [List.countP_cons]
      by_cases h : (digitAt exp x).toNat = d <;> simp [h]
    have hrec := ih c0 out0 hc
      (fun d hd => by have := hcnt d; have := hle d hd; omega)
      (fun d e hde he => by have := hcnt e; have := hsep d e hde he; omega)
      hbound
    obtain ⟨hr1, hr2, hr3, hr4, hr5⟩ := hrec
    have hx1 : rest.countP (fun z => decide ((digitAt exp z).toNat = (digitAt exp x).toNat)) + 1
        ≤ c0.getD (digitAt exp x).toNat 0 := by
      have h1 := hcnt (digitAt exp x).toNat
      have h2 := hle (digitAt exp x).toNat hdx10
      simp only [eq_self_iff_true, if_true] at h1
      omega
    have hposval : (placeLoop exp rest c0 out0).1.getD (digitAt exp x).toNat 0
        = c0.getD (digitAt exp x).toNat 0
          - rest.countP (fun z => decide ((digitAt exp z).toNat = (digitAt exp x).toNat)) :=
      hr2 _ hdx10
    rw [placeLoop_cons]
    refine ⟨by rw [List.length_set, hr1], ?_, by rw [List.length_set, hr3], ?_, ?_⟩
    · -- counters
      intro d hd
      by_cases hdd : (digitAt exp x).toNat = d
      · subst hdd
        rw [getD_set_lt _ _ _ _ (by rw [hr1]; exact hdx10), hposval]
        have := hcnt (digitAt exp x).toNat
        simp only [eq_self_iff_true, if_true] at this
        omega
      · rw [getD_set_ne _ _ _ _ _ hdd, hr2 d hd]
        have := hcnt d
        rw [if_neg hdd] at this
        omega
    · -- untouched positions
      intro p hp
      have hpx := hp (digitAt exp x).toNat hdx10
      have hcx := hcnt (digitAt exp x).toNat
      simp only [eq_self_iff_true, if_true] at hcx
      rw [getD_set_ne _ _ _ _ _ (by rw [hposval]; omega)]
      refine hr4 p (fun d hd => ?_)
      have := hp d hd
      have := hcnt d
      omega
    · -- placed positions: the stable bucket layout
      intro d hd i hi
      have hcd := hcnt d
      have hcx := hcnt (digitAt exp x).toNat
      simp only [eq_self_iff_true, if_true] at hcx
      by_cases hdd : (digitAt exp x).toNat = d
      · subst hdd
        simp only [eq_self_iff_true, if_true] at hcd
        cases i with
        | zero =>
          have hq : c0.getD (digitAt exp x).toNat 0
              - (x :: rest).countP (fun z => decide ((digitAt exp z).toNat = (digitAt exp x).toNat))
              + 0
              = (placeLoop exp rest c0 out0).1.getD (digitAt exp x).toNat 0 - 1 := by
            rw [hposval]; omega
          rw [hq, getD_set_lt _ _ _ _ (by
            rw [hr3, hposval]
            have := hbound (digitAt exp x).toNat hdx10
            omega)]
          rw [List.filter_cons_of_pos (by simp)]
          rfl
        | succ i =>
          have hq : c0.getD (digitAt exp x).toNat 0
              - (x :: rest).countP (fun z => decide ((digitAt exp z).toNat = (digitAt exp x).toNat))
              + (i + 1)
              = c0.getD (digitAt exp x).toNat 0
                - rest.countP (fun z => decide ((digitAt exp z).toNat = (digitAt exp x).toNat))
                + i := by omega
          rw [hq, getD_set_ne _ _ _ _ _ (by rw [hposval]; omega)]
          rw [hr5 _ hdx10 i (by omega)]
          rw [List.filter_cons_of_pos (by simp), List.getD_cons_succ]
      · rw [if_neg hdd] at hcd
        have hsep2 : (placeLoop exp rest c0 out0).1.getD (digitAt exp x).toNat 0 - 1
            ≠ c0.getD d 0
              - (x :: rest).countP (fun z => decide ((digitAt exp z).toNat = d)) + i := by
          rw [hposval]
          rcases Nat.lt_or_ge (digitAt exp x).toNat d with hlt | hge
          · have := hsep (digitAt exp x).toNat d hlt hd
            have := hle d hd
            omega
          · have hdlt : d < (digitAt exp x).toNat := by omega
            have := hsep d (digitAt exp x).toNat hdlt hdx10
            have := hle d hd
            omega
        rw [getD_set_ne _ _ _ _ _ hsep2]
        have hq : c0.getD d 0
            - (x :: rest).countP (fun z => decide ((digitAt exp z).toNat = d)) + i
            = c0.getD d 0 - rest.countP (fun z => decide ((digitAt exp z).toNat = d)) + i := by
          omega
        rw [hq, hr5 d hd i (by omega)]
        rw [List.filter_cons_of_neg (by simp [hdd])]

/-! ### Assembling the pass: `countingSortForRadix` is the stable bucket sort -/

theorem countP_lt_succ (exp : Int) (a : List Int) (d : Nat) :
    a.countP (fun z => decide ((digitAt exp z).toNat < d + 1))
      = a.countP (fun z => decide ((digitAt exp z).toNat < d))
        + a.countP (fun z => decide ((digitAt exp z).toNat = d)) := by
  have h1 := countP_or_disjoint (fun z : Int => decide ((digitAt exp z).toNat < d))
    (fun z : Int => decide ((digitAt exp z).toNat = d))
    (fun x => by simp only [decide_eq_true_eq]; omega) a
  rw [← h1]
  exact countP_congr_mem a (fun z => decide ((digitAt exp z).toNat < d + 1))
    (fun z => decide ((digitAt exp z).toNat < d) || decide ((digitAt exp z).toNat = d))
    (fun x _ => by
      rw [Bool.eq_iff_iff]
      simp only [Bool.or_eq_true, decide_eq_true_eq]
      omega)

theorem countP_lt_mono (exp : Int) (a : List Int) {d e : Nat} (h : d ≤ e) :
    a.countP (fun z => decide ((digitAt exp z).toNat < d))
      ≤ a.countP (fun z => decide ((digitAt exp z).toNat < e)) :=
  List.countP_mono_left (fun x _ hp => by simp only [decide_eq_true_eq] at hp ⊢; omega)

theorem countP_lt_ten (exp : Int) (a : List Int) :
    a.countP (fun z => decide ((digitAt exp z).toNat < 10)) = a.length := by
  rw [countP_congr_mem a (fun z => decide ((digitAt exp z).toNat < 10)) (fun _ => true)
    (fun x _ => by simp [dN_lt_ten])]
  simp

theorem sum_cnt_lt (exp : Int) (a : List Int) :
    ∀ d, ((List.range' 0 d).map
        (fun e => a.countP (fun z => decide ((digitAt exp z).toNat = e)))).sum
      = a.countP (fun z => decide ((digitAt exp z).toNat < d)) := by
  intro d
  induction d with
  | zero =>
    simp only [List.range'_zero, List.map_nil, List.sum_nil]
    symm
    simp [List.countP_eq_zero]
  | succ d ih =>
    rw [List.range'_1_concat, List.map_append, List.sum_append, ih, countP_lt_succ]
    simp

theorem bucket_exists (exp : Int) (a : List Int) :
    ∀ d p, p < a.countP (fun z => decide ((digitAt exp z).toNat < d)) →
      ∃ e, e < d ∧ a.countP (fun z => decide ((digitAt exp z).toNat < e)) ≤ p ∧
        p < a.countP (fun z => decide ((digitAt exp z).toNat < e))
          + a.countP (fun z => decide ((digitAt exp z).toNat = e)) := by
  intro d
  induction d with
  | zero =>
    intro p hp
    rw [show a.countP (fun z => decide ((digitAt exp z).toNat < 0)) = 0 from by
      simp [List.countP_eq_zero]] at hp
    omega
  | succ d ih =>
    intro p hp
    by_cases hpd : p < a.countP (fun z => decide ((digitAt exp z).toNat < d))
    · obtain ⟨e, he1, he2, he3⟩ := ih p hpd
      exact ⟨e, by omega, he2, he3⟩
    · refine ⟨d, by omega, by omega, ?_⟩
      rw [countP_lt_succ] at hp
      omega

theorem digitOk_iff (exp : Int) (a : List Int) :
    digitOk exp a = true ↔ ∀ z ∈ a, 0 ≤ digitAt exp z := by
  simp [digitOk]

theorem filter_digit_eq_toNat (exp : Int) (a : List Int)
    (h : ∀ z ∈ a, 0 ≤ digitAt exp z) (d : Nat) :
    a.filter (fun z => decide (digitAt exp z = (d : Int)))
      = a.filter (fun z => decide ((digitAt exp z).toNat = d)) :=
  List.filter_congr (fun z hz => by
    rw [Bool.eq_iff_iff]
    simp only [decide_eq_true_eq]
    have := h z hz
    omega)

theorem flatMapBuckets_getD (f : Nat → List Int) :
    ∀ (d k s i : Nat), d < k → i < (f (s + d)).length →
      ((List.range' s k).flatMap f).getD
        ((((List.range' s d).map (fun e => (f e).length)).sum) + i) 0
        = (f (s + d)).getD i 0 := by
  intro d
  induction d with
  | zero =>
    intro k s i hk hi
    match k, hk with
    | k + 1, _ =>
      rw [List.range'_succ, List.flatMap_cons]
      simp only [List.range'_zero, List.map_nil, List.sum_nil, Nat.zero_add]
      exact List.getD_append _ _ _ _ hi
  | succ d ihd =>
    intro k s i hk hi
    match k, hk with
    | k + 1, _ =>
      rw [List.range'_succ, List.flatMap_cons]
      rw [show List.range' s (d + 1) = s :: List.range' (s + 1) d from List.range'_succ s d 1]
      simp only [List.map_cons, List.sum_cons]
      rw [Nat.add_assoc, List.getD_append_right _ _ _ _ (Nat.le_add_right _ _),
        Nat.add_sub_cancel_left]
      have hsd : s + (d + 1) = (s + 1) + d := by omega
      rw [hsd] at hi ⊢
      exact ihd k (s + 1) i (by omega) hi

/-- `countingSortForRadix(arr, n, exp)` computes exactly the stable
bucket concatenation (`stableDigitPass`) whenever every digit is in
range — i.e. whenever its execution is defined. -/
theorem countingSortForRadix_stable (a : List Int) (exp : Int) (h : digitOk exp a = true) :
    countingSortForRadix a exp = some (stableDigitPass exp a) := by
  have hnn : ∀ z ∈ a, 0 ≤ digitAt exp z := (digitOk_iff exp a).mp h
  unfold countingSortForRadix
  rw [if_pos h]
  dsimp only
  congr 1
  have hc0len : (prefixLoop (countAcc exp a)).length = 10 :=
    (prefixLoop_parts _ (countAcc_length exp a)).1
  have hc0 : ∀ d, d < 10 → (prefixLoop (countAcc exp a)).getD d 0
      = a.countP (fun z => decide ((digitAt exp z).toNat < d + 1)) := by
    intro d hd
    rw [prefixLoop_countAcc exp a d hd]
    exact countP_congr_mem a (fun z => decide ((digitAt exp z).toNat ≤ d))
      (fun z => decide ((digitAt exp z).toNat < d + 1))
      (fun x _ => by
        rw [Bool.eq_iff_iff]
        simp only [decide_eq_true_eq]
        omega)
  have hps := placeLoop_spec exp a (prefixLoop (countAcc exp a))
    (List.replicate a.length none) hc0len
    (fun d hd => by rw [hc0 d hd, countP_lt_succ]; omega)
    (fun d e hde he => by
      rw [hc0 d (by omega), hc0 e he, countP_lt_succ exp a e, Nat.add_sub_cancel]
      exact countP_lt_mono exp a (by omega))
    (fun d hd => by
      rw [hc0 d hd, List.length_replicate]
      exact List.countP_le_length _)
  obtain ⟨hp1, hp2, hp3, hp4, hp5⟩ := hps
  have hlenL : ((placeLoop exp a (prefixLoop (countAcc exp a))
      (List.replicate a.length none)).2.map (fun o => o.getD 0)).length = a.length := by
    rw [List.length_map, hp3, List.length_replicate]
  have hflen : ∀ e2 : Nat, (a.filter (fun x => decide (digitAt exp x = (e2 : Int)))).length
      = a.countP (fun z => decide ((digitAt exp z).toNat = e2)) := by
    intro e2
    rw [filter_digit_eq_toNat exp a hnn e2, ← List.countP_eq_length_filter]
  have hlenR : (stableDigitPass exp a).length = a.length := by
    unfold stableDigitPass
    rw [List.length_flatMap, List.range_eq_range']
    simp only [Function.comp_def]
    rw [List.map_congr_left (fun e _ => hflen e), sum_cnt_lt, countP_lt_ten]
  refine List.ext_getElem (by rw [hlenL, hlenR]) ?_
  intro p hpL hpR
  have hpa : p < a.length := by rw [hlenL] at hpL; exact hpL
  obtain ⟨e, he, hlo, hhi⟩ := bucket_exists exp a 10 p (by rw [countP_lt_ten]; exact hpa)
  have hie : p - a.countP (fun z => decide ((digitAt exp z).toNat < e))
      < a.countP (fun z => decide ((digitAt exp z).toNat = e)) := by omega
  have hidx : (prefixLoop (countAcc exp a)).getD e 0
      - a.countP (fun z => decide ((digitAt exp z).toNat = e))
      + (p - a.countP (fun z => decide ((digitAt exp z).toNat < e))) = p := by
    rw [hc0 e he, countP_lt_succ]
    omega
  have hfill := hp5 e he (p - a.countP (fun z => decide ((digitAt exp z).toNat < e))) hie
  rw [hidx] at hfill
  rw [← List.getD_eq_getElem _ 0 hpL, ← List.getD_eq_getElem _ 0 hpR]
  have hplen : p < (placeLoop exp a (prefixLoop (countAcc exp a))
      (List.replicate a.length none)).2.length := by
    rw [hp3, List.length_replicate]
    exact hpa
  have hLgetD : ((placeLoop exp a (prefixLoop (countAcc exp a))
      (List.replicate a.length none)).2.map (fun o => o.getD 0)).getD p 0
      = ((placeLoop exp a (prefixLoop (countAcc exp a))
          (List.replicate a.length none)).2.getD p none).getD 0 := by
    rw [List.getD_eq_getElem?_getD, List.getD_eq_getElem?_getD, List.getElem?_map,
      List.getElem?_eq_getElem hplen]
    rfl
  rw [hLgetD, hfill]
  have hRp : (stableDigitPass exp a).getD p 0
      = ((a.filter (fun z => decide (digitAt exp z = (e : Int)))).getD
          (p - a.countP (fun z => decide ((digitAt exp z).toNat < e))) 0) := by
    unfold stableDigitPass
    rw [List.range_eq_range']
    have happ := flatMapBuckets_getD
      (fun d => a.filter (fun x => decide (digitAt exp x = (d : Int)))) e 10 0
      (p - a.countP (fun z => decide ((digitAt exp z).toNat < e))) (by omega)
      (by
        rw [show (0 : Nat) + e = e from by omega]
        simp only []
        rw [hflen e]
        exact hie)
    simp only [] at happ
    rw [List.map_congr_left (fun e2 _ => hflen e2), sum_cnt_lt] at happ
    rw [show a.countP (fun z => decide ((digitAt exp z).toNat < e))
        + (p - a.countP (fun z => decide ((digitAt exp z).toNat < e))) = p from by omega] at happ
    rw [show (0 : Nat) + e = e from by omega] at happ
    exact happ
  rw [hRp, filter_digit_eq_toNat exp a hnn e]
  rfl

/-! ### The stable pass permutes and sorts one more digit -/

theorem flatMap_congr_mem {α β : Type} (l : List α) (f g : α → List β)
    (h : ∀ x ∈ l, f x = g x) : l.flatMap f = l.flatMap g := by
  induction l with
  | nil => rfl
  | cons x t ih =>
    rw [List.flatMap_cons, List.flatMap_cons, h x (by simp),
      ih (fun y hy => h y (by simp [hy]))]

theorem bucketsFlat_cons (exp x : Int) (rest : List Int) (hx : 0 ≤ digitAt exp x) :
    ∀ ds : List Nat, (digitAt exp x).toNat ∈ ds → ds.Nodup →
      (ds.flatMap (fun d => (x :: rest).filter
          (fun z => decide (digitAt exp z = (d : Int))))).Perm
        (x :: ds.flatMap (fun d => rest.filter
          (fun z => decide (digitAt exp z = (d : Int))))) := by
  intro ds
  induction ds with
  | nil => intro h _; exact absurd h (by simp)
  | cons d ds ih =>
    intro hmem hnd
    rw [List.flatMap_cons, List.flatMap_cons]
    by_cases hdx : (digitAt exp x).toNat = d
    · rw [List.filter_cons_of_pos (by simp only [decide_eq_true_eq]; omega)]
      have hnotin : d ∉ ds := (List.nodup_cons.mp hnd).1
      have hrest : ds.flatMap (fun e => (x :: rest).filter
            (fun z => decide (digitAt exp z = (e : Int))))
          = ds.flatMap (fun e => rest.filter
            (fun z => decide (digitAt exp z = (e : Int)))) := by
        refine flatMap_congr_mem ds _ _ (fun e he => ?_)
        rw [List.filter_cons_of_neg (by
          simp only [decide_eq_true_eq]
          intro hcontra
          have hed : e = d := by omega
          exact hnotin (hed ▸ he))]
      rw [hrest]
      exact List.Perm.refl _
    · rw [List.filter_cons_of_neg (by simp only [decide_eq_true_eq]; omega)]
      have hmem2 : (digitAt exp x).toNat ∈ ds := by
        rcases List.mem_cons.mp hmem with h | h
        · exact absurd h hdx
        · exact h
      have hih := ih hmem2 (List.nodup_cons.mp hnd).2
      refine (List.Perm.append_left _ hih).trans ?_
      exact List.perm_middle

theorem stableDigitPass_perm (exp : Int) :
    ∀ a : List Int, (∀ z ∈ a, 0 ≤ digitAt exp z) → (stableDigitPass exp a).Perm a := by
  intro a
  induction a with
  | nil =>
    intro _
    unfold stableDigitPass
    simp
  | cons x rest ih =>
    intro hnn
    have hx : 0 ≤ digitAt exp x := hnn x (by simp)
    have hcons := bucketsFlat_cons exp x rest hx (List.range 10)
      (by rw [List.mem_range]; exact dN_lt_ten exp x) (List.nodup_range 10)
    exact hcons.trans ((ih (fun z hz => hnn z (by simp [hz]))).cons x)

theorem stableDigitPass_sorted (k : Nat) (a : List Int)
    (hnn : ∀ z ∈ a, 0 ≤ z)
    (hs : List.Pairwise (fun u v => u % ((10 : Int) ^ k) ≤ v % 10 ^ k) a) :
    List.Pairwise (fun u v => u % ((10 : Int) ^ (k + 1)) ≤ v % 10 ^ (k + 1))
      (stableDigitPass ((10 : Int) ^ k) a) := by
  have hkey : ∀ x ∈ a, x % ((10 : Int) ^ (k + 1))
      = 10 ^ k * ((x / 10 ^ k) % 10) + x % 10 ^ k :=
    fun x hx => emod_pow_succ x (hnn x hx) k
  unfold stableDigitPass
  rw [List.flatMap_def, List.pairwise_flatten]
  constructor
  · intro l' hl'
    obtain ⟨d, _, rfl⟩ := List.mem_map.mp hl'
    have hpw : List.Pairwise (fun u v => u % ((10 : Int) ^ k) ≤ v % 10 ^ k)
        (a.filter (fun z => decide (digitAt ((10 : Int) ^ k) z = (d : Int)))) :=
      List.Pairwise.sublist (List.filter_sublist a) hs
    refine hpw.imp_of_mem ?_
    intro u v hu hv huv
    have hua := (List.mem_filter.mp hu).1
    have hva := (List.mem_filter.mp hv).1
    have hud : (u / (10 : Int) ^ k) % 10 = (d : Int) := by
      have h2 := (List.mem_filter.mp hu).2
      simp only [decide_eq_true_eq] at h2
      rw [← digitAt_pow k u (hnn u hua)]
      exact h2
    have hvd : (v / (10 : Int) ^ k) % 10 = (d : Int) := by
      have h2 := (List.mem_filter.mp hv).2
      simp only [decide_eq_true_eq] at h2
      rw [← digitAt_pow k v (hnn v hva)]
      exact h2
    rw [hkey u hua, hkey v hva, hud, hvd]
    exact add_le_add_left huv _
  · rw [List.pairwise_map]
    refine (List.pairwise_lt_range 10).imp ?_
    intro d1 d2 hd12 x hx y hy
    have hxa := (List.mem_filter.mp hx).1
    have hya := (List.mem_filter.mp hy).1
    have hxd : (x / (10 : Int) ^ k) % 10 = (d1 : Int) := by
      have h2 := (List.mem_filter.mp hx).2
      simp only [decide_eq_true_eq] at h2
      rw [← digitAt_pow k x (hnn x hxa)]
      exact h2
    have hyd : (y / (10 : Int) ^ k) % 10 = (d2 : Int) := by
      have h2 := (List.mem_filter.mp hy).2
      simp only [decide_eq_true_eq] at h2
      rw [← digitAt_pow k y (hnn y hya)]
      exact h2
    rw [hkey x hxa, hkey y hya, hxd, hyd]
    have h1 : x % (10 : Int) ^ k < 10 ^ k := Int.emod_lt_of_pos _ (by positivity)
    have h2 : (0 : Int) ≤ y % 10 ^ k := Int.emod_nonneg _ (by positivity)
    have hd : (d1 : Int) + 1 ≤ (d2 : Int) := by exact_mod_cast hd12
    nlinarith [pow_pos (show (0 : Int) < 10 by norm_num) k]

/-! ### The pass loop (`for (exp = 1; m / exp > 0; exp *= 10)`) -/

theorem radixPasses_spec :
    ∀ (D fuel : Nat) (a : List Int) (t k : Nat),
      (Nat.digits 10 t).length = D → D < fuel →
      (10 : Int) ^ (k + D) ≤ INT_MAX →
      (∀ z ∈ a, 0 ≤ z) →
      (∀ z ∈ a, z < (10 : Int) ^ (k + D)) →
      List.Pairwise (fun u v => u % ((10 : Int) ^ k) ≤ v % 10 ^ k) a →
      radixPasses fuel a t ((10 : Int) ^ k) = some (applyStablePasses D k a) ∧
      (applyStablePasses D k a).Perm a ∧
      List.Pairwise (fun u v => u % ((10 : Int) ^ (k + D)) ≤ v % 10 ^ (k + D))
        (applyStablePasses D k a) := by
  intro D
  induction D with
  | zero =>
    intro fuel a t k hD hfuel _ hnn _ hs
    have ht : t = 0 := by
      cases t with
      | zero => rfl
      | succ t2 =>
        rw [Nat.digits_def' (by norm_num) (Nat.succ_pos t2)] at hD
        simp at hD
    subst ht
    match fuel, hfuel with
    | fuel + 1, _ =>
      refine ⟨?_, List.Perm.refl _, hs⟩
      unfold radixPasses
      rw [if_pos rfl]
      rfl
  | succ D ihD =>
    intro fuel a t k hD hfuel hbig hnn hbound hs
    have ht : t ≠ 0 := by
      intro h
      subst h
      simp at hD
    match fuel, hfuel with
    | fuel + 1, _ =>
      have hok : digitOk ((10 : Int) ^ k) a = true := by
        rw [digitOk_iff]
        intro z hz
        exact digitAt_nonneg _ _ (hnn z hz) (by positivity)
      have hpass := countingSortForRadix_stable a ((10 : Int) ^ k) hok
      have hperm : (stableDigitPass ((10 : Int) ^ k) a).Perm a :=
        stableDigitPass_perm _ a
          (fun z hz => digitAt_nonneg _ _ (hnn z hz) (by positivity))
      have hnn2 : ∀ z ∈ stableDigitPass ((10 : Int) ^ k) a, 0 ≤ z :=
        fun z hz => hnn z (hperm.mem_iff.mp hz)
      have hbound2 : ∀ z ∈ stableDigitPass ((10 : Int) ^ k) a,
          z < (10 : Int) ^ ((k + 1) + D) := by
        intro z hz
        have hzb := hbound z (hperm.mem_iff.mp hz)
        rw [show (k + 1) + D = k + (D + 1) from by omega]
        exact hzb
      have hs2 := stableDigitPass_sorted k a hnn hs
      have hdig : (Nat.digits 10 (t / 10)).length = D := by
        rw [Nat.digits_def' (by norm_num) (Nat.pos_of_ne_zero ht)] at hD
        simpa using hD
      have hbig2 : (10 : Int) ^ ((k + 1) + D) ≤ INT_MAX := by
        rw [show (k + 1) + D = k + (D + 1) from by omega]
        exact hbig
      have hexp : (10 : Int) ^ k * 10 ≤ INT_MAX :=
        calc (10 : Int) ^ k * 10 = 10 ^ (k + 1) := (pow_succ 10 k).symm
          _ ≤ 10 ^ (k + (D + 1)) := pow_le_pow_right₀ (by norm_num) (by omega)
          _ ≤ INT_MAX := hbig
      have hih := ihD fuel (stableDigitPass ((10 : Int) ^ k) a) (t / 10) (k + 1)
        hdig (by omega) hbig2 hnn2 hbound2 hs2
      unfold radixPasses
      rw [if_neg ht, hpass]
      refine ⟨?_, hih.2.1.trans hperm, ?_⟩
      · show (if (10 : Int) ^ k * 10 ≤ INT_MAX then
            radixPasses fuel (stableDigitPass ((10 : Int) ^ k) a) (t / 10)
              ((10 : Int) ^ k * 10)
          else none) = some (applyStablePasses (D + 1) k a)
        rw [if_pos hexp,
          show (10 : Int) ^ k * 10 = 10 ^ (k + 1) from (pow_succ 10 k).symm, hih.1]
        rfl
      · have hfin := hih.2.2
        rw [show k + (D + 1) = (k + 1) + D from by omega]
        exact hfin

/-! ### The maximum -/

theorem foldl_max_ge : ∀ (ys : List Int) (m : Int),
    m ≤ ys.foldl (fun m v => if m < v then v else m) m ∧
    ∀ x ∈ ys, x ≤ ys.foldl (fun m v => if m < v then v else m) m := by
  intro ys
  induction ys with
  | nil => intro m; exact ⟨le_rfl, by simp⟩
  | cons y t ih =>
    intro m
    rw [List.foldl_cons]
    have hm : m ≤ if m < y then y else m := by split <;> omega
    have hy : y ≤ if m < y then y else m := by split <;> omega
    have hrec := ih (if m < y then y else m)
    refine ⟨le_trans hm hrec.1, ?_⟩
    intro x hx
    rcases List.mem_cons.mp hx with h | h
    · subst h
      exact le_trans hy hrec.1
    · exact hrec.2 x h

theorem le_getMax (x : Int) (a : List Int) (hx : x ∈ a) : x ≤ getMax a := by
  match a, hx with
  | y :: ys, hx =>
    unfold getMax
    rcases List.mem_cons.mp hx with h | h
    · subst h
      exact (foldl_max_ge ys x).1
    · exact (foldl_max_ge ys y).2 x h

theorem foldl_max_lt (B : Int) : ∀ (ys : List Int) (m : Int), m < B →
    (∀ x ∈ ys, x < B) → ys.foldl (fun m v => if m < v then v else m) m < B := by
  intro ys
  induction ys with
  | nil => intro m hm _; exact hm
  | cons y t ih =>
    intro m hm hall
    rw [List.foldl_cons]
    have hy : y < B := hall y (List.mem_cons_self y t)
    refine ih _ ?_ (fun x hx => hall x (List.mem_cons_of_mem y hx))
    split <;> omega

theorem getMax_lt (a : List Int) (B : Int) (hB : 0 < B)
    (hall : ∀ x ∈ a, x < B) : getMax a < B := by
  match a with
  | [] => exact hB
  | x :: xs =>
    unfold getMax
    exact foldl_max_lt B xs x (hall x (List.mem_cons_self x xs))
      (fun z hz => hall z (List.mem_cons_of_mem x hz))

/--
**C6, counterexample.** The claim asserts that on EVERY all-non-negative
range the radix backend runs one stable counting pass per decimal digit
of the maximum and leaves the range a non-decreasing permutation.  It
fails on the all-non-negative range `[1000000000]`: the maximum has 10
decimal digits, so after its pass at `exp = 10^9` the loop increment
computes `exp * 10 = 10^10 > INT_MAX`, overflowing the 32-bit `int exp`
— signed overflow, undefined behavior — and the backend delivers no
result at all (modelled `none`), let alone a sorted permutation after
digit-count-many passes.
-/
theorem radixSort_overflows_on_ten_digit_max :
    (∀ z ∈ dOverflow, 0 ≤ z) ∧ dOverflow ≠ [] ∧ radixSort dOverflow = none := by
  decide

/--
**C6, amended.** The radix backend, on any non-empty all-non-negative
range whose values lie below `10^9` (equivalently: the maximum has at
most 9 decimal digits, so the 32-bit `exp` never overflows): it returns
a result which is non-decreasing and a permutation of the range, and
that result is computed as exactly one stable counting pass
(`stableDigitPass`, keyed on one decimal digit) per decimal digit
position, the number of passes being the decimal digit count of the
maximum value.
-/
theorem radixSort_correct_on_bounded_nonneg (a : List Int) (hne : a ≠ [])
    (hnn : ∀ z ∈ a, 0 ≤ z) (hsm : ∀ z ∈ a, z < 1000000000) :
    radixSort a = some (applyStablePasses ((Nat.digits 10 (getMax a).toNat).length) 0 a) ∧
    (applyStablePasses ((Nat.digits 10 (getMax a).toNat).length) 0 a).Perm a ∧
    List.Chain' (· ≤ ·)
      (applyStablePasses ((Nat.digits 10 (getMax a).toNat).length) 0 a) := by
  have hfuel : (Nat.digits 10 (getMax a).toNat).length < (getMax a).toNat + 1 := by
    rcases Nat.eq_zero_or_pos (getMax a).toNat with h0 | hpos
    · rw [h0]
      simp
    · have h1 : (getMax a).toNat < 10 ^ (getMax a).toNat :=
        Nat.lt_pow_self (by norm_num) _
      have h2 := Nat.digits_len 10 (getMax a).toNat (by norm_num) (by omega)
      have h3 := Nat.log_lt_of_lt_pow (by omega) h1
      omega
  have hbound : ∀ z ∈ a, z < (10 : Int) ^ (0 + (Nat.digits 10 (getMax a).toNat).length) := by
    intro z hz
    have h1 : z ≤ getMax a := le_getMax z a hz
    have h2 : (getMax a).toNat < 10 ^ (Nat.digits 10 (getMax a).toNat).length :=
      Nat.lt_base_pow_length_digits (by norm_num)
    have h3 : getMax a ≤ ((getMax a).toNat : Int) := by omega
    have h4 : (((10 : Nat) ^ (Nat.digits 10 (getMax a).toNat).length : Nat) : Int)
        = (10 : Int) ^ (0 + (Nat.digits 10 (getMax a).toNat).length) := by
      rw [Nat.zero_add]
      push_cast
      rfl
    calc z ≤ ((getMax a).toNat : Int) := le_trans h1 h3
      _ < (((10 : Nat) ^ (Nat.digits 10 (getMax a).toNat).length : Nat) : Int) := by
          exact_mod_cast h2
      _ = _ := h4
  have hs0 : List.Pairwise (fun u v => u % ((10 : Int) ^ 0) ≤ v % 10 ^ 0) a := by
    refine List.pairwise_iff_getElem.mpr ?_
    intro i j hi hj hij
    simp
  have hD : (Nat.digits 10 (getMax a).toNat).length ≤ 9 := by
    have hmax : getMax a < 1000000000 := getMax_lt a 1000000000 (by norm_num) hsm
    rcases Nat.eq_zero_or_pos (getMax a).toNat with h0 | hpos
    · rw [h0]
      simp
    · have hpow : (10 : Nat) ^ 9 = 1000000000 := by norm_num
      have h1 : (getMax a).toNat < 10 ^ 9 := by omega
      have h2 := Nat.digits_len 10 (getMax a).toNat (by norm_num) (by omega)
      have h3 := Nat.log_lt_of_lt_pow (by omega) h1
      omega
  have hbig : (10 : Int) ^ (0 + (Nat.digits 10 (getMax a).toNat).length) ≤ INT_MAX := by
    have h1 : (10 : Int) ^ (0 + (Nat.digits 10 (getMax a).toNat).length) ≤ 10 ^ (9 : Nat) :=
      pow_le_pow_right₀ (by norm_num) (by omega)
    have h2 : (10 : Int) ^ (9 : Nat) ≤ INT_MAX := by norm_num [INT_MAX]
    exact le_trans h1 h2
  have hsp := radixPasses_spec ((Nat.digits 10 (getMax a).toNat).length)
    ((getMax a).toNat + 1) a (getMax a).toNat 0 rfl hfuel hbig hnn hbound hs0
  refine ⟨?_, hsp.2.1, ?_⟩
  · unfold radixSort
    have h := hsp.1
    rw [pow_zero] at h
    exact h
  · rw [List.chain'_iff_pairwise]
    refine hsp.2.2.imp_of_mem ?_
    intro u v hu hv huv
    have hua := hsp.2.1.mem_iff.mp hu
    have hva := hsp.2.1.mem_iff.mp hv
    rwa [Int.emod_eq_of_lt (hnn u hua) (hbound u hua),
      Int.emod_eq_of_lt (hnn v hva) (hbound v hva)] at huv

/-- Witness for C6 on a 32-element all-non-negative array (each entry
of `dThirtyTwo` shifted by one, so values `1..32`, all far below `10^9`;
`getMax = 32`, two passes): the radix backend yields a sorted
permutation computed by the stable passes. -/
theorem radixSort_correct_on_bounded_nonneg_witness :
    (dThirtyTwo.map (fun z => z + 1) ≠ [] ∧ (∀ z ∈ dThirtyTwo.map (fun z => z + 1), 0 ≤ z) ∧
      ∀ z ∈ dThirtyTwo.map (fun z => z + 1), z < 1000000000) ∧
    (radixSort (dThirtyTwo.map (fun z => z + 1))
        = some (applyStablePasses
            ((Nat.digits 10 (getMax (dThirtyTwo.map (fun z => z + 1))).toNat).length) 0
            (dThirtyTwo.map (fun z => z + 1))) ∧
      (applyStablePasses
          ((Nat.digits 10 (getMax (dThirtyTwo.map (fun z => z + 1))).toNat).length) 0
          (dThirtyTwo.map (fun z => z + 1))).Perm (dThirtyTwo.map (fun z => z + 1)) ∧
      List.Chain' (· ≤ ·)
        (applyStablePasses
          ((Nat.digits 10 (getMax (dThirtyTwo.map (fun z => z + 1))).toNat).length) 0
          (dThirtyTwo.map (fun z => z + 1)))) :=
  ⟨⟨by decide, by decide, by decide⟩,
    radixSort_correct_on_bounded_nonneg (dThirtyTwo.map (fun z => z + 1))
      (by decide) (by decide) (by decide)⟩

end PolySort
